/-
  Verification of the Fleece core (HAMT + Encoder) against its specification.

  The development shallowly embeds the two source files of the repository:
  `HAMTree.cc` (an in-memory Hash Array Mapped Trie) and `Encoder.cc`
  (the streaming producer of the Fleece wire format).  Machine integers are
  modelled as `Nat`/`Int` with explicit masking where the C++ code wraps;
  fallible code (C++ `throw`, failing `assert`) is modelled with
  `Except`/`Option`.  Types whose implementation lives in headers that are
  not part of the two source files (`value`, the varint codec, `slice`
  comparison, the string interning table) are modelled from the
  specification, and are marked as such in their doc comments.
-/
import Mathlib

namespace Fleece

/-! # Part 1: the HAMT (`HAMTree.cc`)

`hash_t = uint32_t`, `bitmap_t = uint64_t`, `kBitShift = 6`,
`kMaxChildren = 64`.

An interior node stores a 64-bit `_bitmap` plus a packed child array:
the child for bit number `b` sits at index `popcount(bitmap & ((1<<b)-1))`,
i.e. the children are kept in ascending bit-number order with no gaps.
We model this representation as an association list of
`(bitNumber, child)` pairs kept in strictly ascending bit-number order;
`hasChild`/`childForBitNumber` become a lookup, `addChild` a sorted
insertion and `removeChild` a deletion.  Keys and values (`Key`, `Val`)
are opaque to the tree except for equality and a 32-bit hash; we model
both as `Nat` and pass the hash function explicitly.
-/

/-- `kBitShift` from `HAMTree.cc`. -/
def kBitShift : Nat := 6

/-- A tree node: `LeafNode` carries `(hash, key, value)`; `InteriorNode`
carries its packed child list (see above for the encoding of
`_bitmap` + `_children`).  The dynamic `_capacity`/`grow()` machinery of
the C++ only affects allocation, not the abstract contents, and is not
modelled. -/
inductive HNode where
  | leaf (hash key val : Nat)
  | interior (children : List (Nat × HNode))

/-- `childBitNumber(hash, shift) = (hash >> shift) & (kMaxChildren - 1)`. -/
def childBitNumber (hash shift : Nat) : Nat := (hash >>> shift) % 64

/-- `hasChild` + `childForBitNumber`: the child stored for a bit number,
if the bitmap has that bit. -/
def lookupChild : List (Nat × HNode) → Nat → Option HNode
  | [], _ => none
  | (b, n) :: rest, bitNo => if b = bitNo then some n else lookupChild rest bitNo

/-- `addChild`: insert a child at its packed (ascending bit-number)
position.  Only called when the bit is not yet present. -/
def addChild : List (Nat × HNode) → Nat → HNode → List (Nat × HNode)
  | [], bitNo, n => [(bitNo, n)]
  | (b, c) :: rest, bitNo, n =>
    if bitNo < b then (bitNo, n) :: (b, c) :: rest else (b, c) :: addChild rest bitNo n

/-- Overwriting the child slot of an existing bit number
(`childRef = ...` in the C++). -/
def replaceChild : List (Nat × HNode) → Nat → HNode → List (Nat × HNode)
  | [], _, _ => []
  | (b, c) :: rest, bitNo, n =>
    if b = bitNo then (b, n) :: rest else (b, c) :: replaceChild rest bitNo n

/-- `removeChild`: delete the child of a bit number. -/
def removeChild : List (Nat × HNode) → Nat → List (Nat × HNode)
  | [], _ => []
  | (b, c) :: rest, bitNo => if b = bitNo then rest else (b, c) :: removeChild rest bitNo

/-- Size bound used to justify termination of `find` below. -/
theorem lookupChild_sizeOf {cs : List (Nat × HNode)} {b : Nat} {n : HNode}
    (h : lookupChild cs b = some n) : sizeOf n < sizeOf cs := by
  induction cs with
  | nil => simp [lookupChild] at h
  | cons p rest ih =>
    obtain ⟨pb, pn⟩ := p
    by_cases hb : pb = b
    · simp [lookupChild, hb] at h
      subst h
      simp
      omega
    · simp [lookupChild, hb] at h
      have := ih h
      simp
      omega

/-- `InteriorNode::find(hash)`: descend one 6-bit slice at a time,
shifting the hash right by `kBitShift` at each level; returns the leaf
reached on the hash's path (if any), represented as its
`(hash, key, val)` triple. -/
def findN : List (Nat × HNode) → Nat → Option (Nat × Nat × Nat)
  | cs, hash =>
    match hm : lookupChild cs (childBitNumber hash 0) with
    | none => none
    | some (.leaf h k v) => some (h, k, v)
    | some (.interior cs2) => findN cs2 (hash >>> kBitShift)
  termination_by cs _ => sizeOf cs
  decreasing_by
    have := lookupChild_sizeOf hm
    simp at this ⊢
    omega

/-- `InteriorNode::itemCount()`: recursive leaf count. -/
def itemCountCs : List (Nat × HNode) → Nat
  | [] => 0
  | (_, .leaf _ _ _) :: rest => 1 + itemCountCs rest
  | (_, .interior cs) :: rest => itemCountCs cs + itemCountCs rest

/-- `InteriorNode::insert(target, shift)`.

The C++ opens with `assert(shift + kBitShift < 8*sizeof(hash_t))`
("TEMP: Handle hash collisions"); the repository's CI builds `Debug`,
so assertions are active, and we model a failing assertion as `none`.
The three branches mirror the source: no child at the slot → add a new
leaf; a leaf with the same hash and key → overwrite its value; a leaf
with a different hash/key → create a fresh interior node holding the old
leaf and recursively insert the target into it; an interior child →
recurse (the `grow()` re-allocation returning a new node pointer has no
abstract effect). -/
def insertN (h k v : Nat) : (shift : Nat) → List (Nat × HNode) → Option (List (Nat × HNode))
  | shift, cs =>
    if shift + kBitShift < 32 then
      match lookupChild cs (childBitNumber h shift) with
      | none => some (addChild cs (childBitNumber h shift) (.leaf h k v))
      | some (.leaf h2 k2 v2) =>
        if h2 = h ∧ k2 = k then
          some (replaceChild cs (childBitNumber h shift) (.leaf h2 k2 v))
        else
          match insertN h k v (shift + kBitShift)
              [(childBitNumber h2 (shift + kBitShift), .leaf h2 k2 v2)] with
          | none => none
          | some cs2 => some (replaceChild cs (childBitNumber h shift) (.interior cs2))
      | some (.interior cs0) =>
        match insertN h k v (shift + kBitShift) cs0 with
        | none => none
        | some cs2 => some (replaceChild cs (childBitNumber h shift) (.interior cs2))
    else none
  termination_by shift _ => 32 - shift
  decreasing_by
    all_goals simp only [kBitShift] at *
    all_goals omega

/-- `InteriorNode::remove(target, shift)`; same assertion modelling as
`insertN`.  Returns whether a leaf was removed, together with the new
child list; a nested interior node whose bitmap became zero is removed
from its parent. -/
def removeN (h k : Nat) : (shift : Nat) → List (Nat × HNode) → Option (Bool × List (Nat × HNode))
  | shift, cs =>
    if shift + kBitShift < 32 then
      match lookupChild cs (childBitNumber h shift) with
      | none => some (false, cs)
      | some (.leaf h2 k2 _) =>
        if h2 = h ∧ k2 = k then some (true, removeChild cs (childBitNumber h shift))
        else some (false, cs)
      | some (.interior cs0) =>
        match removeN h k (shift + kBitShift) cs0 with
        | none => none
        | some (false, _) => some (false, cs)
        | some (true, []) => some (true, removeChild cs (childBitNumber h shift))
        | some (true, cs2) => some (true, replaceChild cs (childBitNumber h shift) (.interior cs2))
    else none
  termination_by shift _ => 32 - shift
  decreasing_by
    all_goals simp only [kBitShift] at *
    all_goals omega

/-- The tree object.  `root = none` models the null `_root` pointer; a
root interior node is identified with its child list. -/
structure HAMTree where
  root : Option (List (Nat × HNode))

/-- The empty tree (`HAMTree::HAMTree()`). -/
def HAMTree.empty : HAMTree := ⟨none⟩

/-- `HAMTree::count()`. -/
def HAMTree.count (t : HAMTree) : Nat :=
  match t.root with
  | none => 0
  | some cs => itemCountCs cs

/-- `HAMTree::get(key)`: find the leaf on the hash's path and compare
its full hash *and* key; `Val{}` (the miss result) is modelled as
`none`. -/
def HAMTree.get (hash : Nat → Nat) (t : HAMTree) (key : Nat) : Option Nat :=
  match t.root with
  | none => none
  | some cs =>
    match findN cs (hash key) with
    | some (h, k, v) => if h = hash key ∧ k = key then some v else none
    | none => none

/-- `HAMTree::insert(key, val)`: allocate an empty root if absent, then
insert at shift 0.  `none` = the insertion aborted on the depth
assertion. -/
def HAMTree.insert (hash : Nat → Nat) (t : HAMTree) (key val : Nat) : Option HAMTree :=
  (insertN (hash key) key val 0 (t.root.getD [])).map (fun cs2 => ⟨some cs2⟩)

/-- `HAMTree::remove(key)`: `false` without touching the tree when the
root is null. -/
def HAMTree.remove (hash : Nat → Nat) (t : HAMTree) (key : Nat) :
    Option (Bool × HAMTree) :=
  match t.root with
  | none => some (false, t)
  | some cs => (removeN (hash key) key 0 cs).map (fun r => (r.1, ⟨some r.2⟩))

/-- Insert a list of `(key, val)` pairs in order. -/
def insertList (hash : Nat → Nat) (t : HAMTree) (l : List (Nat × Nat)) : Option HAMTree :=
  l.foldlM (fun t p => t.insert hash p.1 p.2) t

/-- Remove a list of keys in order (discarding the found/not-found bit,
as the claim only constrains the final state). -/
def removeList (hash : Nat → Nat) (t : HAMTree) (l : List Nat) : Option HAMTree :=
  l.foldlM (fun t k => (t.remove hash k).map (·.2)) t

/-- One public mutating operation of the tree. -/
inductive HOp where
  | ins (key val : Nat)
  | rem (key : Nat)

/-- Run a sequence of insert/remove operations. -/
def runHOps (hash : Nat → Nat) (t : HAMTree) (l : List HOp) : Option HAMTree :=
  l.foldlM (fun t op =>
    match op with
    | .ins k v => t.insert hash k v
    | .rem k => (t.remove hash k).map (·.2)) t

/-- Does some interior node in the forest hold at most one child?
(The property claim C6 says never happens.) -/
def csHasSingle : List (Nat × HNode) → Bool
  | [] => false
  | (_, .leaf _ _ _) :: rest => csHasSingle rest
  | (_, .interior cs) :: rest => decide (cs.length ≤ 1) || csHasSingle cs || csHasSingle rest

/-- Every interior node in the forest is nonempty (holds ≥ 1 child). -/
def csOK : List (Nat × HNode) → Bool
  | [] => true
  | (_, .leaf _ _ _) :: rest => csOK rest
  | (_, .interior cs) :: rest => !cs.isEmpty && csOK cs && csOK rest

/-- `csOK` seen from a single node. -/
def nodeOKb : HNode → Bool
  | .leaf _ _ _ => true
  | .interior cs => !cs.isEmpty && csOK cs

/-! # Part 2: the Encoder (`Encoder.cc`)

The output stream (`Writer`) is a byte list; a byte is a `Nat` kept
below 256 by construction.  C++ `throw "..."` is modelled as
`Except.error` with the thrown message. -/

/-- `kNarrow` = 2: width in bytes of a narrow value word. -/
def kNarrow : Nat := 2

/-- `kWide` = 4: width in bytes of a wide value word. -/
def kWide : Nat := 4

/-- Value tags (spec §3.1: the high nibble of the first byte). -/
def kShortIntTag : Nat := 0
def kIntTag : Nat := 1
def kFloatTag : Nat := 2
def kSpecialTag : Nat := 3
def kStringTag : Nat := 4
def kBinaryTag : Nat := 5
def kArrayTag : Nat := 6
def kDictTag : Nat := 7

/-- Modelled from the spec: special-value low nibbles
`{0: null, 2: false, 3: true}` (§3.1). -/
def kSpecialValueNull : Nat := 0
def kSpecialValueFalse : Nat := 2
def kSpecialValueTrue : Nat := 3

/-- Modelled from the spec: `kMaxSharedStringSize`, the longest string
that is interned ("implementation-chosen, e.g. 15", §3.2). -/
def kMaxSharedStringSize : Nat := 15

/-- Modelled from the spec: `internal::value` (its header is not among
the source files) — a 4-byte tagged word stored as individual bytes
(`uint8_t _byte[4]`); a narrow use of the word only touches `b0, b1`. -/
structure value where
  b0 : Nat
  b1 : Nat
  b2 : Nat
  b3 : Nat
deriving DecidableEq, Repr

/-- The all-zero word (used only as a `getD` default for indexing). -/
def vzero : value := ⟨0, 0, 0, 0⟩

/-- Modelled from the spec: `value(tag, tiny)` — tag in the high nibble
of byte 0, a tiny payload in its low nibble. -/
def value.ofTiny (tag tiny : Nat) : value := ⟨(tag <<< 4) ||| tiny, 0, 0, 0⟩

/-- Modelled from the spec: `value(tag, tiny, byte1)` — as `ofTiny`,
plus an explicit second byte. -/
def value.ofTinyByte (tag tiny byte1 : Nat) : value := ⟨(tag <<< 4) ||| tiny, byte1, 0, 0⟩

/-- Modelled from the spec: `value(offset, width)` — a pointer word;
the stored payload is `offset / 2` in the low 15 (narrow) or 31 (wide)
bits, big-endian within the word, with the top bit of byte 0 set
(§3.1, §4.D).  Out-of-range offsets truncate as the C++ byte stores
would. -/
def value.pointer (offset width : Nat) : value :=
  let off2 := offset / 2
  if width = kNarrow then
    ⟨0x80 + (off2 >>> 8) % 0x80, off2 % 256, 0, 0⟩
  else
    ⟨0x80 + (off2 >>> 24) % 0x80, (off2 >>> 16) % 256, (off2 >>> 8) % 256, off2 % 256⟩

/-- Modelled from the spec: `value::isPointer()` — tag nibble ≥ 8. -/
def value.isPointer (v : value) : Bool := decide (0x80 ≤ v.b0)

/-- Modelled from the spec: `value::pointerValue<true>()` — read the
31-bit payload of a wide pointer word and restore the `× 2` scale.
While items are being buffered, pointer words hold *absolute* stream
positions, written and read through this pair of functions. -/
def pointerValueWide (v : value) : Nat :=
  ((v.b0 % 0x80) * 0x1000000 + v.b1 * 0x10000 + v.b2 * 0x100 + v.b3) * 2

/-- The two bytes a narrow store of a value word writes. -/
def narrowBytes (v : value) : List Nat := [v.b0, v.b1]

/-- The four bytes a wide store of a value word writes. -/
def wideBytes (v : value) : List Nat := [v.b0, v.b1, v.b2, v.b3]

/-- Modelled from the spec: the loop of `PutUVarInt` — unsigned LEB128,
7-bit little-endian groups with continuation bit `0x80`, at most 10
bytes for a 64-bit value (§4.A); the byte-budget argument bounds the
loop.  `n % 0x80 + 0x80` is the C++ `(n & 0x7F) | 0x80`. -/
def PutUVarIntGo : Nat → Nat → List Nat
  | 0, n => [n % 0x80]
  | fuel + 1, n => if n < 0x80 then [n] else (n % 0x80 + 0x80) :: PutUVarIntGo fuel (n >>> 7)

/-- Modelled from the spec: `PutUVarInt(buf, v)` (§4.A). -/
def PutUVarInt (n : Nat) : List Nat := PutUVarIntGo 10 n

/-- The 8 little-endian bytes of a 64-bit pattern. -/
def leBytes8 (u : Nat) : List Nat :=
  [u % 256, (u >>> 8) % 256, (u >>> 16) % 256, (u >>> 24) % 256,
   (u >>> 32) % 256, (u >>> 40) % 256, (u >>> 48) % 256, (u >>> 56) % 256]

/-- Modelled from the spec: the trimming loop of `PutIntOfLength` —
drop most-significant bytes while the value is preserved (for signed
values the sign must remain recoverable from the top bit of the last
remaining byte).  The input here is most-significant-first. -/
def trimIntBytes (unsigned : Bool) : List Nat → List Nat
  | [] => []
  | [b] => [b]
  | b :: b2 :: rest =>
    if unsigned then
      if b = 0 then trimIntBytes unsigned (b2 :: rest) else b :: b2 :: rest
    else
      if (b = 0 ∧ b2 < 0x80) ∨ (b = 0xFF ∧ 0x80 ≤ b2) then trimIntBytes unsigned (b2 :: rest)
      else b :: b2 :: rest

/-- Modelled from the spec: `PutIntOfLength(buf, v, unsigned)` — the
minimum number (1..8) of little-endian bytes preserving the value
(§4.A); `u` is the 64-bit two's-complement pattern. -/
def PutIntOfLength (u : Nat) (unsigned : Bool) : List Nat :=
  (trimIntBytes unsigned (leBytes8 u).reverse).reverse

/-- The 64-bit two's-complement pattern of an `int64_t` (the C++
`(uint64_t)i` conversion). -/
def u64ofInt (i : Int) : Nat := (i % ((2:Int) ^ 64)).toNat

/-- Modelled from the spec: `slice::compare` — unsigned
byte-lexicographic comparison, a strict prefix ordering before the
longer slice (memcmp over the common prefix, then by size; §4.E, §6.4). -/
def sliceCompare : List Nat → List Nat → Ordering
  | [], [] => .eq
  | [], _ :: _ => .lt
  | _ :: _, [] => .gt
  | a :: as2, b :: bs => if a < b then .lt else if b < a then .gt else sliceCompare as2 bs

/-- A `slice` as stored in a frame's `keys` vector: the byte content
when the string has a stable buffer (out-of-line), `none` for an inline
string (null `buf`), plus the recorded size. -/
structure KeySlice where
  buf : Option (List Nat)
  size : Nat
deriving DecidableEq, Repr

/-- `StringTable::info`: first-write offset and the used-as-key flag. -/
structure StringInfo where
  offset : Nat
  usedAsKey : Bool
deriving DecidableEq, Repr

/-- Modelled from the spec: the string interning table (§4.C), as an
association list from byte content to `StringInfo`; `find` is the
first (and only) entry with matching content. -/
def lookupString : List (List Nat × StringInfo) → List Nat → Option StringInfo
  | [], _ => none
  | (s2, i) :: rest, s => if s2 = s then some i else lookupString rest s

/-- Set `usedAsKey` on the entry for `s` (`entry->second.usedAsKey = true`). -/
def markKeyUsed : List (List Nat × StringInfo) → List Nat → List (List Nat × StringInfo)
  | [], _ => []
  | (s2, i) :: rest, s =>
    if s2 = s then (s2, ⟨i.offset, true⟩) :: rest else (s2, i) :: markKeyUsed rest s

/-- A `valueArray`: one open-collection stack frame (§3.3). -/
structure valueArray where
  tag : Nat
  items : List value
  wide : Bool
  keys : List KeySlice
deriving DecidableEq, Repr

/-- `valueArray::reset(tag)`: a fresh frame. -/
def valueArray.reset (tag : Nat) : valueArray := ⟨tag, [], false, []⟩

/-- The encoder state.  `stack` holds the open frames, innermost first;
the empty stack models `_items == NULL` (after `end`).  `strings` is
the interning table. -/
structure EncoderState where
  out : List Nat
  stack : List valueArray
  writingKey : Bool
  blockedOnKey : Bool
  strings : List (List Nat × StringInfo)
  uniqueStrings : Bool
  sortKeys : Bool
deriving DecidableEq, Repr

/-- `Encoder::nextWritePos()`: pad the stream to an even length with a
zero byte if needed and return the write position. -/
def nextWritePos (st : EncoderState) : EncoderState × Nat :=
  if st.out.length % 2 = 1 then ({ st with out := st.out ++ [0] }, st.out.length + 1)
  else (st, st.out.length)

/-- `Encoder::addItem(v)`: reject a value while a key is expected,
update the key bookkeeping flags, and append the word to the current
frame.  An empty stack is the C++ null `_items` dereference. -/
def addItem (v : value) (st : EncoderState) : Except String EncoderState :=
  if st.blockedOnKey then .error "need a key before this value"
  else
    match st.stack with
    | [] => .error "null items"
    | f :: rest =>
      let st :=
        if st.writingKey then { st with writingKey := false }
        else if f.tag = kDictTag then { st with writingKey := true, blockedOnKey := true }
        else st
      .ok { st with stack := { f with items := f.items ++ [v] } :: rest }

/-- Mark the current frame wide (`_items->wide = true`). -/
def setTopWide (st : EncoderState) : EncoderState :=
  match st.stack with
  | [] => st
  | f :: rest => { st with stack := { f with wide := true } :: rest }

/-- `Encoder::writePointer(p)`: buffer an absolute stream position as a
wide pointer word (fixed up to a relative offset before being written). -/
def writePointer (p : Nat) (st : EncoderState) : Except String EncoderState :=
  addItem (value.pointer p kWide) st

/-- `Encoder::writeValue(tag, buf, size, canInline)`: `buf[0] |= tag<<4`;
small payloads become an inline (zero-padded) word, marking the frame
wide beyond 2 bytes; larger ones are written out-of-line at the next
even position with a pointer buffered in their place. -/
def writeValue (tag : Nat) (buf : List Nat) (canInline : Bool) (st : EncoderState) :
    Except String EncoderState :=
  match buf with
  | [] => .error "empty buffer"
  | b0 :: rest =>
    if canInline ∧ rest.length + 1 ≤ 4 then
      let padded := ((b0 ||| (tag <<< 4)) :: rest) ++ List.replicate (4 - (rest.length + 1)) 0
      (addItem ⟨padded.getD 0 0, padded.getD 1 0, padded.getD 2 0, padded.getD 3 0⟩ st).map
        (fun st => if 2 < rest.length + 1 then setTopWide st else st)
    else
      (writePointer (nextWritePos st).2 (nextWritePos st).1).map
        (fun st2 => { st2 with out := st2.out ++ ((b0 ||| (tag <<< 4)) :: rest) })

/-- `Encoder::writeNull()`. -/
def writeNull (st : EncoderState) : Except String EncoderState :=
  addItem (value.ofTiny kSpecialTag kSpecialValueNull) st

/-- `Encoder::writeBool(b)`. -/
def writeBool (b : Bool) (st : EncoderState) : Except String EncoderState :=
  addItem (value.ofTiny kSpecialTag (if b then kSpecialValueTrue else kSpecialValueFalse)) st

/-- The full-length integer record of `Encoder::writeInt`: size byte
(`len - 1`, with `0x08` for unsigned) followed by the minimal
little-endian bytes, padded to even length. -/
def intFullBuf (u : Nat) (isUnsigned : Bool) : List Nat :=
  let bytes := PutIntOfLength u isUnsigned
  let b0 := (bytes.length - 1) ||| (if isUnsigned then 0x08 else 0)
  let buf := b0 :: bytes
  if buf.length % 2 = 1 then buf ++ [0] else buf

/-- `Encoder::writeInt(uint64_t i, bool isSmall, bool isUnsigned)`:
a short-int inline word when small, else the full record through
`writeValue`. -/
def writeInt64 (u : Nat) (isSmall isUnsigned : Bool) (st : EncoderState) :
    Except String EncoderState :=
  if isSmall then
    addItem (value.ofTinyByte kShortIntTag ((u >>> 8) &&& 0x0F) (u &&& 0xFF)) st
  else
    writeValue kIntTag (intFullBuf u isUnsigned) true st

/-- `Encoder::writeInt(int64_t i)`: small iff `i < 2048 && i >= -2048`. -/
def writeInt (i : Int) (st : EncoderState) : Except String EncoderState :=
  writeInt64 (u64ofInt i) (decide (i < 2048 ∧ -2048 ≤ i)) false st

/-- `Encoder::writeUInt(uint64_t i)`: small iff `i < 2048`. -/
def writeUInt (u : Nat) (st : EncoderState) : Except String EncoderState :=
  writeInt64 (u % 2 ^ 64) (decide (u % 2 ^ 64 < 2048)) true st

/-- `Encoder::writeData(tag, slice)`: frame a string/binary payload.
Byte 0's low nibble is `min(size, 15)`; sizes ≥ 15 append a varint;
payloads shorter than `kNarrow` are inlined (null result buffer),
others go out-of-line after the header, giving a stable buffer.
(The `s.size == 0` pad byte of the source is unreachable — size 0 is
inlined — and is kept as dead code.) -/
def writeDataTagged (tag : Nat) (s : List Nat) (st : EncoderState) :
    Except String (EncoderState × KeySlice) :=
  let b0 := min s.length 0xF
  if s.length < kNarrow then
    (writeValue tag (b0 :: s) true st).map (fun st => (st, ⟨none, s.length⟩))
  else
    let buf := b0 :: (if 0x0F ≤ s.length then PutUVarInt s.length else [])
    let buf := if s.length = 0 then buf ++ [0] else buf
    (writeValue tag buf false st).map
      (fun st => ({ st with out := st.out ++ s }, ⟨some s, s.length⟩))

/-- `Encoder::_writeString(s, asKey)`: intern strings of length
`kNarrow .. kMaxSharedStringSize` when `uniqueStrings` is set — a hit
buffers a pointer to the recorded offset (updating `usedAsKey`), a miss
records the next write position and writes the string, adding a table
entry when the payload was written out-of-line.  Anything else goes
straight to `writeData`. -/
def writeStringInternal (s : List Nat) (asKey : Bool) (st : EncoderState) :
    Except String (EncoderState × KeySlice) :=
  if st.uniqueStrings ∧ kNarrow ≤ s.length ∧ s.length ≤ kMaxSharedStringSize then
    match lookupString st.strings s with
    | some info =>
      (writePointer info.offset st).map (fun st =>
        (if asKey then { st with strings := markKeyUsed st.strings s } else st,
         ⟨some s, s.length⟩))
    | none =>
      -- `auto offset = (uint32_t)nextWritePos()`, then write the data
      (writeDataTagged kStringTag s (nextWritePos st).1).map (fun p =>
        match p.2.buf with
        | some _ =>
          ({ p.1 with strings := (s, ⟨(nextWritePos st).2 % 2 ^ 32, asKey⟩) :: p.1.strings },
           p.2)
        | none => p)
  else writeDataTagged kStringTag s st

/-- `Encoder::writeString(s)`. -/
def writeString (s : List Nat) (st : EncoderState) : Except String EncoderState :=
  (writeStringInternal s false st).map (·.1)

/-- `Encoder::writeData(s)` (public binary-data entry point). -/
def writeDataBinary (s : List Nat) (st : EncoderState) : Except String EncoderState :=
  (writeDataTagged kBinaryTag s st).map (·.1)

/-- Append a slice to the current frame's `keys`. -/
def pushTopKey (ks : KeySlice) (st : EncoderState) : EncoderState :=
  match st.stack with
  | [] => st
  | f :: rest => { st with stack := { f with keys := f.keys ++ [ks] } :: rest }

/-- `Encoder::writeKey(s)`: only legal while a key is expected; writes
the key string and (when `sortKeys`) remembers the resulting slice for
the closing sort. -/
def writeKey (s : List Nat) (st : EncoderState) : Except String EncoderState :=
  if ¬ st.blockedOnKey then
    match st.stack with
    | [] => .error "null items"
    | f :: _ =>
      if f.tag = kDictTag then .error "need a value after a key"
      else .error "not writing a dictionary"
  else
    let st := { st with blockedOnKey := false }
    (writeStringInternal s true st).map (fun p =>
      if p.1.sortKeys then pushTopKey p.2 p.1 else p.1)

/-- `Encoder::push(tag, reserve)`: open a fresh frame (`reserve` only
pre-allocates and is not modelled). -/
def push (tag : Nat) (st : EncoderState) : EncoderState :=
  { st with stack := valueArray.reset tag :: st.stack }

/-- `Encoder::beginArray(reserve)`. -/
def beginArray (st : EncoderState) : Except String EncoderState :=
  .ok (push kArrayTag st)

/-- `Encoder::beginDictionary(reserve)`: push, then expect a key. -/
def beginDictionary (st : EncoderState) : Except String EncoderState :=
  .ok { push kDictTag st with writingKey := true, blockedOnKey := true }

/-- 64-bit wrapping subtraction (`size_t` arithmetic). -/
def sub64 (a b : Nat) : Nat := (((a : Int) - (b : Int)) % ((2:Int) ^ 64)).toNat

/-- The scanning loop of `checkPointerWidths`: walking the items at
notional narrow positions from `base`, is any buffered pointer ≥ 0x10000
bytes behind its slot? -/
def anyFarPointer : Nat → List value → Bool
  | _, [] => false
  | base, v :: rest =>
    if v.isPointer ∧ 0x10000 ≤ sub64 base (pointerValueWide v) then true
    else anyFarPointer (base + kNarrow) rest

/-- `Encoder::checkPointerWidths(items)`: for a still-narrow frame, pad
to the next write position and promote to wide if any pointer is too
far. -/
def checkPointerWidths (f : valueArray) (st : EncoderState) : valueArray × EncoderState :=
  if f.wide then (f, st)
  else
    ({ f with wide := anyFarPointer (nextWritePos st).2 f.items }, (nextWritePos st).1)

/-- One step of `Encoder::fixPointers`: rewrite an absolute pointer at
slot position `base` into a relative pointer of the chosen width. -/
def fixValue (base width : Nat) (v : value) : value :=
  if v.isPointer then value.pointer (sub64 base (pointerValueWide v)) width else v

/-- `Encoder::fixPointers(items)`: convert every buffered absolute
pointer to a relative one, the slot position advancing by the element
width. -/
def fixPointers (width : Nat) : Nat → List value → List value
  | _, [] => []
  | base, v :: rest => fixValue base width v :: fixPointers width (base + width) rest

/-- Key resolution at the top of `Encoder::sortDict`: a null-buffer
(inline) key's bytes live at offset 1 of its own item word. -/
def resolveKey (items : List value) (i : Nat) (ks : KeySlice) : List Nat :=
  match ks.buf with
  | some bs => bs
  | none =>
    let v := items.getD (2 * i) vzero
    ([v.b1, v.b2, v.b3]).take ks.size

/-- All keys of a dict frame, resolved to their byte content. -/
def resolveKeys (items : List value) (keys : List KeySlice) : List (List Nat) :=
  keys.enum.map (fun p => resolveKey items p.1 p.2)

/-- `Encoder::sortDict(items)`: resolve inline keys, sort an index
array by `slice::compare` (the source uses `qsort`, modelled as a
comparison sort — the order of equal keys is unspecified either way),
and rewrite the `2n` item words in the permuted pair order. -/
def sortDictItems (items : List value) (keys : List KeySlice) : List value :=
  let n := keys.length
  if n < 2 then items
  else
    let rk := resolveKeys items keys
    let idx := (List.range n).insertionSort
      (fun i j => sliceCompare (rk.getD i []) (rk.getD j []) ≠ Ordering.gt)
    idx.flatMap (fun j => [items.getD (2 * j) vzero, items.getD (2 * j + 1) vzero])

/-- The collection header bytes of `Encoder::endCollection`: 11-bit
inline count (capped at 0x07FF), varint extension iff
`count ≥ 0x0FFF` (padded to even length), wide flag = bit 3 of byte 0. -/
def mkCollectionHeader (count : Nat) (wide : Bool) : List Nat :=
  let inlineCount := min count 0x07FF
  let buf := [inlineCount >>> 8, inlineCount &&& 0xFF]
  let buf :=
    if 0x0FFF ≤ count then
      let buf2 := buf ++ PutUVarInt count
      if buf2.length % 2 = 1 then buf2 ++ [0] else buf2
    else buf
  match buf with
  | [] => []
  | b0 :: rest => (if wide then b0 ||| 0x08 else b0) :: rest

/-- The bytes of the element-word section: all four bytes per word when
wide, the first two when narrow. -/
def renderItems (wide : Bool) (items : List value) : List Nat :=
  if wide then items.flatMap wideBytes else items.flatMap narrowBytes

/-- `Encoder::endCollection(tag)`: pop the frame (wrong tag throws),
sort a `sortKeys` dict, pick the element width, emit the header through
`writeValue` into the parent (inline only when empty), fix the
pointers at the final positions, and append the element words. -/
def endCollection (tag : Nat) (st : EncoderState) : Except String EncoderState :=
  match st.stack with
  | [] => .error "null items"
  | f :: rest =>
    if f.tag ≠ tag then .error "ending wrong type of collection"
    else
      match rest with
      | [] => .error "stack underflow"
      | _ :: _ =>
        let st1 : EncoderState :=
          { st with stack := rest, writingKey := false, blockedOnKey := false }
        let f1 := if st1.sortKeys ∧ f.tag = kDictTag then
            { f with items := sortDictItems f.items f.keys } else f
        let f2 := (checkPointerWidths f1 st1).1
        let st2 := (checkPointerWidths f1 st1).2
        -- `auto count = (uint32_t)items->size()`, halved for a dict
        let count := if f2.tag = kDictTag then f2.items.length % 2 ^ 32 / 2
                     else f2.items.length % 2 ^ 32
        (writeValue f2.tag (mkCollectionHeader count f2.wide) (decide (count = 0)) st2).map
          (fun st3 =>
            if 0 < count then
              { (nextWritePos st3).1 with
                out := (nextWritePos st3).1.out ++ renderItems f2.wide
                  (fixPointers (if f2.wide then kWide else kNarrow)
                    (nextWritePos st3).2 f2.items) }
            else (nextWritePos st3).1)

/-- `Encoder::endArray()`. -/
def endArray (st : EncoderState) : Except String EncoderState :=
  endCollection kArrayTag st

/-- `Encoder::endDictionary()`: a dangling key (value still due) throws. -/
def endDictionary (st : EncoderState) : Except String EncoderState :=
  if ¬ st.writingKey then .error "need a value"
  else endCollection kDictTag st

/-- `Encoder::end()` (named `endDoc` here; `end` is reserved in Lean):
a null `_items` returns at once; open collections or a second top-level
value throw; otherwise the fixed-up root value word is appended — plus,
when it is wide, a 2-byte narrow pointer word `value(4, kNarrow)` — and
the state is finalized (`_items = NULL`). -/
def endDoc (st : EncoderState) : Except String EncoderState :=
  match st.stack with
  | [] => .ok st
  | f :: rest =>
    if 0 < rest.length then .error "unclosed array/dict"
    else if 1 < f.items.length then .error "top level must have only one value"
    else
      match f.items with
      | [] => .ok { st with stack := [] }
      | v :: _ =>
        if f.wide then
          .ok { (nextWritePos st).1 with
                out := (nextWritePos st).1.out ++
                  wideBytes (fixValue (nextWritePos st).2 kWide v) ++
                  narrowBytes (value.pointer 4 kNarrow),
                stack := [] }
        else
          .ok { (nextWritePos st).1 with
                out := (nextWritePos st).1.out ++
                  narrowBytes (fixValue (nextWritePos st).2 kNarrow v),
                stack := [] }

/-- `Encoder::Encoder(out)`: empty output, one sentinel `kSpecialTag`
frame, interning and key sorting on by default. -/
def initEncoder : EncoderState :=
  { out := [], stack := [valueArray.reset kSpecialTag],
    writingKey := false, blockedOnKey := false,
    strings := [], uniqueStrings := true, sortKeys := true }

/-- One public encoder operation. -/
inductive EncOp where
  | wNull
  | wBool (b : Bool)
  | wInt (i : Int)
  | wUInt (u : Nat)
  | wString (s : List Nat)
  | wData (s : List Nat)
  | wKey (s : List Nat)
  | beginArr
  | beginDict
  | endArr
  | endDict
  | endD

/-- Dispatch one operation. -/
def runOp : EncOp → EncoderState → Except String EncoderState
  | .wNull, st => writeNull st
  | .wBool b, st => writeBool b st
  | .wInt i, st => writeInt i st
  | .wUInt u, st => writeUInt u st
  | .wString s, st => writeString s st
  | .wData s, st => writeDataBinary s st
  | .wKey s, st => writeKey s st
  | .beginArr, st => beginArray st
  | .beginDict, st => beginDictionary st
  | .endArr, st => endArray st
  | .endDict, st => endDictionary st
  | .endD, st => endDoc st

/-- Run a sequence of encoder operations. -/
def runOps (l : List EncOp) (st : EncoderState) : Except String EncoderState :=
  l.foldlM (fun st op => runOp op st) st

/-- The output stream padded to an even length (what `nextWritePos`
leaves behind). -/
def padEven (out : List Nat) : List Nat :=
  if out.length % 2 = 1 then out ++ [0] else out

/-- The interning table's recorded first-write offset for a byte
content. -/
def lookupOffset (tbl : List (List Nat × StringInfo)) (s : List Nat) : Option Nat :=
  (lookupString tbl s).map (·.offset)

/-! # Part 3: the claims -/

/-! ## Decoders (verification artifacts used to state recoverability) -/

/-- Decoder for a short-int word: its 12 payload bits read as
two's-complement. -/
def decodeShortInt (v : value) : Int :=
  let u := (v.b0 % 16) * 256 + v.b1
  if u < 0x800 then (u : Int) else (u : Int) - 0x1000

/-- Sign-extending decoder for the little-endian bytes of a full int
record. -/
def decodeIntLE (bs : List Nat) : Int :=
  let u : Nat := bs.foldr (fun b acc => acc * 256 + b) 0
  if 2 * u < 256 ^ bs.length then (u : Int) else (u : Int) - (256 : Int) ^ bs.length

/-- The big-endian value of a byte list. -/
def valBE (bs : List Nat) : Nat := bs.foldl (fun acc b => acc * 256 + b) 0

/-- Sign-extending decoder, big-endian form. -/
def decodeBE (bs : List Nat) : Int :=
  if 2 * valBE bs < 256 ^ bs.length then (valBE bs : Int)
  else (valBE bs : Int) - (256 : Int) ^ bs.length

theorem valBE_aux (bs : List Nat) (acc : Nat) :
    bs.foldl (fun a b => a * 256 + b) acc =
      acc * 256 ^ bs.length + bs.foldl (fun a b => a * 256 + b) 0 := by
  induction bs generalizing acc with
  | nil => simp
  | cons b bs ih =>
    rw [List.foldl_cons, List.foldl_cons, ih (acc * 256 + b), ih (0 * 256 + b),
      List.length_cons]
    ring

theorem valBE_cons (b : Nat) (bs : List Nat) :
    valBE (b :: bs) = b * 256 ^ bs.length + valBE bs := by
  show List.foldl _ _ _ = _
  rw [List.foldl_cons, valBE_aux]
  unfold valBE
  ring

theorem valBE_lt (bs : List Nat) (h : ∀ b ∈ bs, b < 256) : valBE bs < 256 ^ bs.length := by
  induction bs with
  | nil => simp [valBE]
  | cons b bs ih =>
    rw [valBE_cons, List.length_cons, pow_succ]
    have hb : b < 256 := h b (by simp)
    have hrest : valBE bs < 256 ^ bs.length := ih (fun x hx => h x (by simp [hx]))
    calc b * 256 ^ bs.length + valBE bs
        < b * 256 ^ bs.length + 256 ^ bs.length := by omega
      _ = (b + 1) * 256 ^ bs.length := by ring
      _ ≤ 256 * 256 ^ bs.length := Nat.mul_le_mul_right _ (by omega)
      _ = 256 ^ bs.length * 256 := by ring

theorem decodeBE_drop_zero (b2 : Nat) (rest : List Nat) (hlt : b2 < 128)
    (hrest : ∀ x ∈ rest, x < 256) :
    decodeBE (0 :: b2 :: rest) = decodeBE (b2 :: rest) := by
  have hP : valBE rest < 256 ^ rest.length := valBE_lt rest hrest
  have hb2P : b2 * 256 ^ rest.length ≤ 127 * 256 ^ rest.length :=
    Nat.mul_le_mul_right _ (by omega)
  have hv2 : valBE (b2 :: rest) = b2 * 256 ^ rest.length + valBE rest := valBE_cons _ _
  have hv1 : valBE (0 :: b2 :: rest) = valBE (b2 :: rest) := by
    rw [valBE_cons]
    omega
  have hp1 : (256 : ℕ) ^ (b2 :: rest).length = 256 * 256 ^ rest.length := by
    rw [List.length_cons, pow_succ]
    ring
  have c1 : 2 * valBE (b2 :: rest) < 256 ^ (b2 :: rest).length := by
    rw [hv2, hp1]
    omega
  have c2 : 2 * valBE (0 :: b2 :: rest) < 256 ^ (0 :: b2 :: rest).length := by
    rw [hv1]
    calc 2 * valBE (b2 :: rest) < 256 ^ (b2 :: rest).length := c1
      _ ≤ 256 ^ (0 :: b2 :: rest).length :=
        Nat.pow_le_pow_right (by omega) (by simp)
  unfold decodeBE
  rw [if_pos c1, if_pos c2, hv1]

theorem decodeBE_drop_ff (b2 : Nat) (rest : List Nat) (hge : 128 ≤ b2) (hb2 : b2 < 256)
    (hrest : ∀ x ∈ rest, x < 256) :
    decodeBE (0xFF :: b2 :: rest) = decodeBE (b2 :: rest) := by
  have hP : valBE rest < 256 ^ rest.length := valBE_lt rest hrest
  have hb2P : 128 * 256 ^ rest.length ≤ b2 * 256 ^ rest.length :=
    Nat.mul_le_mul_right _ (by omega)
  have hv2 : valBE (b2 :: rest) = b2 * 256 ^ rest.length + valBE rest := valBE_cons _ _
  have hp1 : (256 : ℕ) ^ (b2 :: rest).length = 256 * 256 ^ rest.length := by
    rw [List.length_cons, pow_succ]
    ring
  have hv1 : valBE (0xFF :: b2 :: rest) =
      255 * (256 * 256 ^ rest.length) + valBE (b2 :: rest) := by
    rw [valBE_cons, hp1]
  have hp2 : (256 : ℕ) ^ (0xFF :: b2 :: rest).length = 256 * (256 * 256 ^ rest.length) := by
    rw [List.length_cons, pow_succ, hp1]
    ring
  have c1 : ¬ 2 * valBE (b2 :: rest) < 256 ^ (b2 :: rest).length := by
    rw [hv2, hp1]
    omega
  have c2 : ¬ 2 * valBE (0xFF :: b2 :: rest) < 256 ^ (0xFF :: b2 :: rest).length := by
    rw [hv1, hp2, hv2]
    omega
  unfold decodeBE
  rw [if_neg c1, if_neg c2, hv1, hv2]
  simp only [List.length_cons]
  push_cast
  ring

/-- Dropping redundant sign bytes preserves the decoded value. -/
theorem decodeBE_trim (bs : List Nat) (h : ∀ b ∈ bs, b < 256) :
    decodeBE (trimIntBytes false bs) = decodeBE bs := by
  induction bs with
  | nil => rfl
  | cons b bs ih =>
    cases bs with
    | nil => rfl
    | cons b2 rest =>
      by_cases hc : (b = 0 ∧ b2 < 0x80) ∨ (b = 0xFF ∧ 0x80 ≤ b2)
      · have htrim : trimIntBytes false (b :: b2 :: rest) = trimIntBytes false (b2 :: rest) := by
          simp only [trimIntBytes, Bool.false_eq_true, if_false, if_pos hc]
        have hmem : ∀ x ∈ b2 :: rest, x < 256 := by
          intro x hx
          exact h x (by simp at hx ⊢; tauto)
        rw [htrim, ih hmem]
        rcases hc with ⟨hb0, hlt⟩ | ⟨hbff, hge⟩
        · rw [hb0]
          exact (decodeBE_drop_zero b2 rest hlt (fun x hx => h x (by simp [hx]))).symm
        · rw [hbff]
          exact (decodeBE_drop_ff b2 rest hge (h b2 (by simp))
            (fun x hx => h x (by simp [hx]))).symm
      · have htrim : trimIntBytes false (b :: b2 :: rest) = b :: b2 :: rest := by
          simp only [trimIntBytes, Bool.false_eq_true, if_false, if_neg hc]
        rw [htrim]

/-- `decodeIntLE` is `decodeBE` of the reversed list. -/
theorem decodeIntLE_eq_decodeBE (bs : List Nat) :
    decodeIntLE bs = decodeBE bs.reverse := by
  have hfold : valBE bs.reverse = bs.foldr (fun b acc => acc * 256 + b) 0 := by
    simp [valBE, List.foldl_reverse]
  simp [decodeIntLE, decodeBE, hfold]

theorem valBE_leBytes8_reverse (u : Nat) :
    valBE (leBytes8 u).reverse = u % 2 ^ 64 := by
  have hrev : (leBytes8 u).reverse =
      [(u >>> 56) % 256, (u >>> 48) % 256, (u >>> 40) % 256, (u >>> 32) % 256,
       (u >>> 24) % 256, (u >>> 16) % 256, (u >>> 8) % 256, u % 256] := rfl
  rw [hrev]
  simp only [valBE, List.foldl_cons, List.foldl_nil, Nat.shiftRight_eq_div_pow]
  norm_num
  omega

theorem decodeBE_leBytes8 (i : Int) (h1 : -(2 ^ 63) ≤ i) (h2 : i < 2 ^ 63) :
    decodeBE (leBytes8 (u64ofInt i)).reverse = i := by
  have e64 : ((2 : Int) ^ 64) = 18446744073709551616 := by norm_num
  have e63 : ((2 : Int) ^ 63) = 9223372036854775808 := by norm_num
  have hu : u64ofInt i < 18446744073709551616 ∧
      ((0 ≤ i ∧ (u64ofInt i : Int) = i) ∨
       (i < 0 ∧ (u64ofInt i : Int) = i + 18446744073709551616)) := by
    unfold u64ofInt
    rw [e63] at h1 h2
    omega
  have hval : valBE (leBytes8 (u64ofInt i)).reverse = u64ofInt i := by
    rw [valBE_leBytes8_reverse]
    have : (2 : ℕ) ^ 64 = 18446744073709551616 := by norm_num
    omega
  have hlen : ((leBytes8 (u64ofInt i)).reverse).length = 8 := rfl
  have e256 : ((256 : ℕ) ^ 8) = 18446744073709551616 := by norm_num
  have e256i : ((256 : Int) ^ 8) = 18446744073709551616 := by norm_num
  unfold decodeBE
  rw [hval, hlen, e256, e256i]
  rw [e63] at h1 h2
  by_cases hc : 2 * u64ofInt i < 18446744073709551616
  · rw [if_pos hc]
    omega
  · rw [if_neg hc]
    omega

theorem mem_leBytes8_lt (u : Nat) : ∀ b ∈ (leBytes8 u).reverse, b < 256 := by
  intro b hb
  have hrev : (leBytes8 u).reverse =
      [(u >>> 56) % 256, (u >>> 48) % 256, (u >>> 40) % 256, (u >>> 32) % 256,
       (u >>> 24) % 256, (u >>> 16) % 256, (u >>> 8) % 256, u % 256] := rfl
  rw [hrev] at hb
  simp at hb
  rcases hb with h | h | h | h | h | h | h | h <;> subst h <;> exact Nat.mod_lt _ (by omega)

/-- The full-length signed record decodes back to the written integer:
`PutIntOfLength` preserves the value of any `int64_t`. -/
theorem decodeIntLE_PutIntOfLength (i : Int) (h1 : -(2 ^ 63) ≤ i) (h2 : i < 2 ^ 63) :
    decodeIntLE (PutIntOfLength (u64ofInt i) false) = i := by
  unfold PutIntOfLength
  rw [decodeIntLE_eq_decodeBE, List.reverse_reverse]
  rw [decodeBE_trim _ (mem_leBytes8_lt (u64ofInt i))]
  exact decodeBE_leBytes8 i h1 h2

/-- The short-int word stores the low 12 bits of `i` in two's
complement, so it decodes back to `i` on the short range. -/
theorem decodeShortInt_of_small (i : Int) (h1 : -2048 ≤ i) (h2 : i < 2048) :
    decodeShortInt (value.ofTinyByte kShortIntTag ((u64ofInt i >>> 8) &&& 0x0F)
      (u64ofInt i &&& 0xFF)) = i := by
  have hb0 : (value.ofTinyByte kShortIntTag ((u64ofInt i >>> 8) &&& 0x0F)
      (u64ofInt i &&& 0xFF)).b0 = (u64ofInt i >>> 8) &&& 0x0F := by
    simp [value.ofTinyByte, kShortIntTag]
  have hb1 : (value.ofTinyByte kShortIntTag ((u64ofInt i >>> 8) &&& 0x0F)
      (u64ofInt i &&& 0xFF)).b1 = u64ofInt i &&& 0xFF := rfl
  unfold decodeShortInt
  rw [hb0, hb1]
  rw [show ((u64ofInt i >>> 8) &&& 0x0F) = (u64ofInt i >>> 8) % 16 from
    Nat.and_pow_two_sub_one_eq_mod _ 4]
  rw [show (u64ofInt i &&& 0xFF) = u64ofInt i % 256 from
    Nat.and_pow_two_sub_one_eq_mod _ 8]
  rw [Nat.shiftRight_eq_div_pow]
  have hu : (u64ofInt i < 18446744073709551616) ∧
      ((0 ≤ i ∧ (u64ofInt i : Int) = i) ∨
       (i < 0 ∧ (u64ofInt i : Int) = i + 18446744073709551616)) := by
    unfold u64ofInt
    have e64 : ((2 : Int) ^ 64) = 18446744073709551616 := by norm_num
    rw [e64]
    omega
  norm_num
  by_cases hc : u64ofInt i / 256 % 16 * 256 + u64ofInt i % 256 < 2048
  · rw [if_pos hc]
    omega
  · rw [if_neg hc]
    omega

/-! ## C8 — `end` with no writes -/

/-- C8 counterexample: the claim says the output of `end` on an
untouched encoder is exactly 2 bytes (a narrow special-null,
`[0x30, 0x00]`).  In `Encoder::end` the write only happens under
`_items->size() > 0`, so an untouched encoder produces an *empty*
stream. -/
theorem C8_counterexample :
    (endDoc initEncoder).map (fun st => st.out) = .ok ([] : List Nat) ∧
    (endDoc initEncoder).map (fun st => st.out) ≠ .ok [0x30, 0x00] := by
  refine ⟨rfl, fun hc => ?_⟩
  rw [show (endDoc initEncoder).map (fun st => st.out) = .ok ([] : List Nat) from rfl] at hc
  simp at hc

/-- C8 (amended): if `end` is called on an encoder on which no write
operation was performed, it succeeds and the resulting output stream is
empty (0 bytes); no trailer word is emitted. -/
theorem C8_theorem :
    endDoc initEncoder = .ok { initEncoder with stack := [] } ∧
    ({ initEncoder with stack := [] } : EncoderState).out = [] := ⟨rfl, rfl⟩

/-! ## C10 — idempotence of `end` -/

/-- Every successful path of `endDoc` finalizes the stack
(`_items = NULL; _stackDepth = 0`). -/
theorem endDoc_ok_stack (st st2 : EncoderState) (h : endDoc st = .ok st2) :
    st2.stack = [] ∨ (st2 = st ∧ st.stack = []) := by
  unfold endDoc at h
  split at h
  next heq => exact Or.inr ⟨(Except.ok.inj h).symm, heq⟩
  next f rest heq =>
    split at h
    next => exact absurd h (by simp)
    next =>
      split at h
      next => exact absurd h (by simp)
      next =>
        split at h
        next => exact Or.inl (by rw [← Except.ok.inj h])
        next =>
          split at h
          next => exact Or.inl (by rw [← Except.ok.inj h])
          next => exact Or.inl (by rw [← Except.ok.inj h])

/-- C10: `end` is idempotent — once a call to `end` has completed
successfully, any further call (including the destructor's) succeeds,
changes nothing, and writes no bytes: `_items` is null, so `end`
returns immediately. -/
theorem C10_theorem (st st2 : EncoderState) (h : endDoc st = .ok st2) :
    endDoc st2 = .ok st2 := by
  rcases endDoc_ok_stack st st2 h with h2 | ⟨he, h2⟩
  · unfold endDoc
    rw [h2]
  · unfold endDoc
    rw [he, h2]

/-- C10 witness: a concrete successfully-ended encoder. -/
theorem C10_witness :
    endDoc { initEncoder with stack := [] } = .ok { initEncoder with stack := [] } :=
  C10_theorem initEncoder { initEncoder with stack := [] } rfl

/-! ## C9 — `beginArray`/`beginDictionary` while a key is expected -/

/-- C9 counterexample: the claim says `beginArray` inside an open dict
with a key expected fails with `NeedKey` and pushes no frame.  In the
source, `beginArray`/`beginDictionary` never consult `_blockedOnKey`:
after `beginDictionary` (key expected), `beginArray` succeeds and a
third frame is on the stack. -/
theorem C9_counterexample :
    runOps [.beginDict, .beginArr] initEncoder =
      .ok { out := [],
            stack := [valueArray.reset kArrayTag, valueArray.reset kDictTag,
                      valueArray.reset kSpecialTag],
            writingKey := true, blockedOnKey := true,
            strings := [], uniqueStrings := true, sortKeys := true } ∧
    (runOps [.beginDict, .beginArr] initEncoder).map (fun st => st.stack.length) =
      .ok 3 :=
  ⟨rfl, rfl⟩

/-- C9 (amended): calling `beginArray` (or `beginDictionary`) while a
key is expected does *not* fail at that call: the new frame is pushed
and the pending expect-a-key state persists, so the `NeedKey` error
("need a key before this value") is raised only by the next scalar
`addItem` — e.g. the first value written inside the new collection. -/
theorem C9_theorem (st : EncoderState) (h : st.blockedOnKey = true) :
    beginArray st = .ok (push kArrayTag st) ∧
    (push kArrayTag st).stack.length = st.stack.length + 1 ∧
    (push kArrayTag st).blockedOnKey = true ∧
    writeNull (push kArrayTag st) = .error "need a key before this value" ∧
    beginDictionary st = .ok { push kDictTag st with writingKey := true, blockedOnKey := true } := by
  refine ⟨rfl, by simp [push], by simpa [push] using h, ?_, rfl⟩
  simp [writeNull, addItem, push, h]

/-- The encoder state immediately after `beginDictionary` on a fresh
encoder: inside an open dict and a key is expected. -/
def stInDict : EncoderState :=
  { out := [], stack := [valueArray.reset kDictTag, valueArray.reset kSpecialTag],
    writingKey := true, blockedOnKey := true, strings := [],
    uniqueStrings := true, sortKeys := true }

/-- C9 witness: right after `beginDictionary` on a fresh encoder, a key
is expected, yet `beginArray` succeeds and only the next scalar write
raises the error. -/
theorem C9_witness :
    stInDict.blockedOnKey = true ∧
    beginArray stInDict = .ok (push kArrayTag stInDict) ∧
    writeNull (push kArrayTag stInDict) = .error "need a key before this value" :=
  ⟨rfl, (C9_theorem stInDict rfl).1, (C9_theorem stInDict rfl).2.2.2.1⟩

/-! ## C5 — short-int versus full int form -/

/-- C5 counterexample: the claim says `writeInt(-2048)` emits the full
int record.  The source's condition is `i < 2048 && i >= -2048`, which
*includes* `-2048`: the encoder buffers the 2-byte short-int word
`0x08 0x00` (12-bit two's-complement of `-2048`), writes nothing
out-of-line, and does not mark the frame wide. -/
theorem C5_counterexample :
    writeInt (-2048) initEncoder =
      .ok { initEncoder with
            stack := [⟨kSpecialTag, [⟨0x08, 0x00, 0, 0⟩], false, []⟩] } ∧
    decodeShortInt ⟨0x08, 0x00, 0, 0⟩ = -2048 := by
  exact ⟨rfl, by decide⟩

/-- C5 (amended): `writeInt(i)` emits the 2-byte short-int inline form
exactly when `-2048 ≤ i < 2048` — so at `2047`, `-2047` and also at
`-2048` — and the short word decodes back to `i`; for all other
`int64_t` inputs (in particular `2048`) it emits the full-length form,
a size byte plus the minimum-length little-endian bytes, which decode
back to `i`. -/
theorem C5_theorem (st : EncoderState) (i : Int)
    (h1 : -(2 ^ 63) ≤ i) (h2 : i < 2 ^ 63) :
    (-2048 ≤ i ∧ i < 2048 →
      writeInt i st =
        addItem (value.ofTinyByte kShortIntTag ((u64ofInt i >>> 8) &&& 0x0F)
          (u64ofInt i &&& 0xFF)) st ∧
      decodeShortInt (value.ofTinyByte kShortIntTag ((u64ofInt i >>> 8) &&& 0x0F)
          (u64ofInt i &&& 0xFF)) = i) ∧
    (¬(-2048 ≤ i ∧ i < 2048) →
      writeInt i st = writeValue kIntTag (intFullBuf (u64ofInt i) false) true st ∧
      decodeIntLE (PutIntOfLength (u64ofInt i) false) = i) := by
  constructor
  · rintro ⟨hlo, hhi⟩
    constructor
    · simp [writeInt, writeInt64, hhi, hlo]
    · exact decodeShortInt_of_small i hlo hhi
  · intro hn
    constructor
    · unfold writeInt writeInt64
      rw [if_neg]
      simp only [decide_eq_true_eq]
      intro hc
      exact hn ⟨hc.2, hc.1⟩
    · exact decodeIntLE_PutIntOfLength i h1 h2

/-- C5 witness: the boundary input 2048 (full form) and the in-range
boundary 2047 (short form). -/
theorem C5_witness :
    (-(2 ^ 63) : Int) ≤ 2048 ∧ (2048 : Int) < 2 ^ 63 ∧
    (writeInt 2048 initEncoder =
        writeValue kIntTag (intFullBuf (u64ofInt 2048) false) true initEncoder ∧
      decodeIntLE (PutIntOfLength (u64ofInt 2048) false) = 2048) ∧
    (writeInt 2047 initEncoder =
        addItem (value.ofTinyByte kShortIntTag ((u64ofInt 2047 >>> 8) &&& 0x0F)
          (u64ofInt 2047 &&& 0xFF)) initEncoder ∧
      decodeShortInt (value.ofTinyByte kShortIntTag ((u64ofInt 2047 >>> 8) &&& 0x0F)
          (u64ofInt 2047 &&& 0xFF)) = 2047) :=
  ⟨by norm_num, by norm_num,
   (C5_theorem initEncoder 2048 (by norm_num) (by norm_num)).2 (by norm_num),
   (C5_theorem initEncoder 2047 (by norm_num) (by norm_num)).1 (by norm_num)⟩

/-! ## C7 — the collection header's count encoding -/

theorem PutUVarIntGo_ne_nil (fuel n : Nat) : PutUVarIntGo fuel n ≠ [] := by
  cases fuel with
  | zero => simp [PutUVarIntGo]
  | succ fuel =>
    unfold PutUVarIntGo
    by_cases h : n < 0x80 <;> simp [h]

theorem PutUVarIntGo_inj (fuel : Nat) : ∀ n m, n < 2 ^ (7 * fuel + 7) → m < 2 ^ (7 * fuel + 7) →
    PutUVarIntGo fuel n = PutUVarIntGo fuel m → n = m := by
  induction fuel with
  | zero =>
    intro n m hn hm h
    simp [PutUVarIntGo] at h
    omega
  | succ fuel ih =>
    intro n m hn hm h
    unfold PutUVarIntGo at h
    by_cases h1 : n < 0x80 <;> by_cases h2 : m < 0x80
    · simp [h1, h2] at h
      exact h
    · simp [h1, h2] at h
      omega
    · simp [h1, h2] at h
      omega
    · simp only [h1, if_false, h2] at h
      rw [List.cons.injEq] at h
      have h27 : (2:ℕ) ^ 7 = 128 := by norm_num
      have hsplit : 7 * (fuel + 1) + 7 = (7 * fuel + 7) + 7 := by ring
      rw [hsplit, pow_add, h27] at hn hm
      have htl := ih (n >>> 7) (m >>> 7)
        (by rw [Nat.shiftRight_eq_div_pow, h27]; omega)
        (by rw [Nat.shiftRight_eq_div_pow, h27]; omega)
        h.2
      have hhd := h.1
      rw [Nat.shiftRight_eq_div_pow, Nat.shiftRight_eq_div_pow, h27] at htl
      omega

theorem PutUVarIntGo_getLast (fuel : Nat) : ∀ n, 1 ≤ n → n < 2 ^ (7 * fuel + 7) →
    (PutUVarIntGo fuel n).getLast? ≠ some 0 := by
  induction fuel with
  | zero =>
    intro n hn hb
    have h128 : (2:ℕ) ^ (7 * 0 + 7) = 128 := by norm_num
    rw [h128] at hb
    intro hc
    simp only [PutUVarIntGo] at hc
    rw [show ([n % 128] : List Nat).getLast? = some (n % 128) from rfl] at hc
    simp only [Option.some.injEq] at hc
    omega
  | succ fuel ih =>
    intro n hn hb
    unfold PutUVarIntGo
    by_cases h1 : n < 0x80
    · simp only [h1, if_true]
      rw [show ([n] : List Nat).getLast? = some n from rfl]
      simp only [Ne, Option.some.injEq]
      omega
    · simp only [h1, if_false]
      obtain ⟨x, xs, hxs⟩ := List.exists_cons_of_ne_nil (PutUVarIntGo_ne_nil fuel (n >>> 7))
      rw [hxs]
      rw [show ((n % 0x80 + 0x80) :: x :: xs).getLast? = (x :: xs).getLast? from rfl]
      rw [← hxs]
      have h27 : (2:ℕ) ^ 7 = 128 := by norm_num
      have hsplit : 7 * (fuel + 1) + 7 = (7 * fuel + 7) + 7 := by ring
      rw [hsplit, pow_add, h27] at hb
      refine ih (n >>> 7) ?_ ?_
      · rw [Nat.shiftRight_eq_div_pow, h27]
        omega
      · rw [Nat.shiftRight_eq_div_pow, h27]
        omega

theorem PutUVarInt_inj (n m : Nat) (hn : n < 2 ^ 64) (hm : m < 2 ^ 64)
    (h : PutUVarInt n = PutUVarInt m) : n = m := by
  refine PutUVarIntGo_inj 10 n m ?_ ?_ h
  · calc n < 2 ^ 64 := hn
      _ ≤ 2 ^ (7 * 10 + 7) := Nat.pow_le_pow_right (by omega) (by omega)
  · calc m < 2 ^ 64 := hm
      _ ≤ 2 ^ (7 * 10 + 7) := Nat.pow_le_pow_right (by omega) (by omega)

theorem PutUVarInt_getLast (n : Nat) (hn : 1 ≤ n) (hb : n < 2 ^ 64) :
    (PutUVarInt n).getLast? ≠ some 0 := by
  refine PutUVarIntGo_getLast 10 n hn ?_
  calc n < 2 ^ 64 := hb
    _ ≤ 2 ^ (7 * 10 + 7) := Nat.pow_le_pow_right (by omega) (by omega)

/-- The header bytes for a small count: inline count only. -/
theorem mkCollectionHeader_small (n : Nat) (w : Bool) (h : n < 0x0FFF) :
    mkCollectionHeader n w =
      [(if w then (min n 0x7FF) >>> 8 ||| 0x08 else (min n 0x7FF) >>> 8),
       (min n 0x7FF) &&& 0xFF] := by
  unfold mkCollectionHeader
  simp only [if_neg (by omega : ¬ 0x0FFF ≤ n)]

/-- The header bytes for a large count: capped inline count `0x7FF`
followed by the varint (padded to even length). -/
theorem mkCollectionHeader_big (n : Nat) (w : Bool) (h : 0x0FFF ≤ n) :
    mkCollectionHeader n w =
      (if w then 0x07 ||| 0x08 else 0x07) :: 0xFF ::
        (PutUVarInt n ++ (if (2 + (PutUVarInt n).length) % 2 = 1 then [0] else [])) := by
  unfold mkCollectionHeader
  have hmin : min n 0x7FF = 0x7FF := by omega
  simp only [hmin, if_pos h]
  have hb0 : (0x7FF : Nat) >>> 8 = 0x07 := by decide
  have hb1 : (0x7FF : Nat) &&& 0xFF = 0xFF := by decide
  rw [hb0, hb1]
  by_cases hp : (2 + (PutUVarInt n).length) % 2 = 1
  · simp only [List.length_append, List.length_cons, List.length_nil]
    rw [if_pos (by simpa using hp), if_pos hp]
    simp
  · simp only [List.length_append, List.length_cons, List.length_nil]
    rw [if_neg (by simpa using hp), if_neg hp]
    simp

/-- C7 counterexample: the dict counts 0x800 and 0x900 are distinct,
yet `endCollection` emits the identical header for both (inline count
capped at 0x7FF, and the varint extension only starts at 0x0FFF), so no
reader can recover the element count from the header on
`[0x7FF, 0xFFE]`. -/
theorem C7_counterexample :
    mkCollectionHeader 0x800 false = mkCollectionHeader 0x900 false ∧
    (0x800 : Nat) ≠ 0x900 := ⟨rfl, by decide⟩

/-- C7 (amended): the header carries an 11-bit inline count capped at
0x7FF with a varint extension exactly when `count ≥ 0x0FFF` (the header
is longer than 2 bytes iff that); the count is recoverable from the
header when `count ≤ 0x7FE` or `count ≥ 0x0FFF` (the header determines
it), but every count in `[0x7FF, 0xFFE]` produces the one fixed header
of `0x7FF`, so those counts are not recoverable. -/
theorem C7_theorem (n1 n2 : Nat) (w : Bool) (hb1 : n1 < 2 ^ 32) (hb2 : n2 < 2 ^ 32) :
    ((mkCollectionHeader n1 w).length = 2 ↔ n1 < 0x0FFF) ∧
    ((n1 ≤ 0x7FE ∨ 0x0FFF ≤ n1) → (n2 ≤ 0x7FE ∨ 0x0FFF ≤ n2) →
      mkCollectionHeader n1 w = mkCollectionHeader n2 w → n1 = n2) ∧
    (0x7FF ≤ n1 → n1 ≤ 0xFFE → mkCollectionHeader n1 w = mkCollectionHeader 0x7FF w) := by
  have hlen : ∀ n : Nat, ((mkCollectionHeader n w).length = 2 ↔ n < 0x0FFF) := by
    intro n
    constructor
    · intro h
      by_contra hc
      rw [mkCollectionHeader_big n w (by omega)] at h
      have hne := PutUVarIntGo_ne_nil 10 n
      simp only [List.length_cons, List.length_append] at h
      have : (PutUVarInt n).length ≥ 1 := by
        cases hput : PutUVarInt n with
        | nil => exact absurd hput hne
        | cons a l => simp
      omega
    · intro h
      rw [mkCollectionHeader_small n w h]
      rfl
  refine ⟨hlen n1, ?_, ?_⟩
  · intro hr1 hr2 heq
    rcases hr1 with hr1 | hr1 <;> rcases hr2 with hr2 | hr2
    · -- both small: inline counts are the true counts
      rw [mkCollectionHeader_small n1 w (by omega), mkCollectionHeader_small n2 w (by omega)]
        at heq
      have hm1 : min n1 0x7FF = n1 := by omega
      have hm2 : min n2 0x7FF = n2 := by omega
      rw [hm1, hm2] at heq
      simp only [List.cons.injEq, and_true] at heq
      obtain ⟨h0, h1⟩ := heq
      have ha1 : n1 &&& 0xFF = n1 % 256 := Nat.and_pow_two_sub_one_eq_mod n1 8
      have ha2 : n2 &&& 0xFF = n2 % 256 := Nat.and_pow_two_sub_one_eq_mod n2 8
      rw [ha1, ha2] at h1
      have hs1 : n1 >>> 8 = n1 / 256 := by rw [Nat.shiftRight_eq_div_pow]
      have hs2 : n2 >>> 8 = n2 / 256 := by rw [Nat.shiftRight_eq_div_pow]
      have hd1 : n1 / 256 < 8 := by omega
      have hd2 : n2 / 256 < 8 := by omega
      have hdiv : n1 / 256 = n2 / 256 := by
        cases w with
        | false => rw [hs1, hs2] at h0; simpa using h0
        | true =>
          rw [hs1, hs2] at h0
          simp only [if_true] at h0
          have hbridge : ∀ a < 8, ∀ b < 8, a ||| 8 = b ||| 8 → a = b := by decide
          exact hbridge _ hd1 _ hd2 h0
      omega
    · -- n1 small, n2 big: lengths differ
      have l1 : (mkCollectionHeader n1 w).length = 2 := (hlen n1).mpr (by omega)
      have l2 : ¬ (mkCollectionHeader n2 w).length = 2 := fun hc => by
        have := (hlen n2).mp hc
        omega
      rw [heq] at l1
      exact absurd l1 l2
    · have l2 : (mkCollectionHeader n2 w).length = 2 := (hlen n2).mpr (by omega)
      have l1 : ¬ (mkCollectionHeader n1 w).length = 2 := fun hc => by
        have := (hlen n1).mp hc
        omega
      rw [heq] at l1
      exact absurd l2 l1
    · -- both big: varints (with an even-length pad) coincide
      rw [mkCollectionHeader_big n1 w (by omega), mkCollectionHeader_big n2 w (by omega)] at heq
      simp only [List.cons.injEq, true_and] at heq
      have htails : (PutUVarInt n1 ++ if (2 + (PutUVarInt n1).length) % 2 = 1 then [0] else []) =
          PutUVarInt n2 ++ if (2 + (PutUVarInt n2).length) % 2 = 1 then [0] else [] := heq
      have hv1 : 1 ≤ n1 := by omega
      have hv2 : 1 ≤ n2 := by omega
      have hbig1 : n1 < 2 ^ 64 := by
        calc n1 < 2 ^ 32 := hb1
          _ ≤ 2 ^ 64 := Nat.pow_le_pow_right (by omega) (by omega)
      have hbig2 : n2 < 2 ^ 64 := by
        calc n2 < 2 ^ 32 := hb2
          _ ≤ 2 ^ 64 := Nat.pow_le_pow_right (by omega) (by omega)
      by_cases hp1 : (2 + (PutUVarInt n1).length) % 2 = 1 <;>
        by_cases hp2 : (2 + (PutUVarInt n2).length) % 2 = 1
      · rw [if_pos hp1, if_pos hp2] at htails
        exact PutUVarInt_inj n1 n2 hbig1 hbig2 (List.append_cancel_right htails)
      · rw [if_pos hp1, if_neg hp2] at htails
        simp only [List.append_nil] at htails
        exact absurd (by rw [← htails]; exact List.getLast?_concat _)
          (PutUVarInt_getLast n2 hv2 hbig2)
      · rw [if_neg hp1, if_pos hp2] at htails
        simp only [List.append_nil] at htails
        exact absurd (by rw [htails]; exact List.getLast?_concat _)
          (PutUVarInt_getLast n1 hv1 hbig1)
      · rw [if_neg hp1, if_neg hp2] at htails
        simp only [List.append_nil] at htails
        exact PutUVarInt_inj n1 n2 hbig1 hbig2 htails
  · intro hlo hhi
    rw [mkCollectionHeader_small n1 w (by omega), mkCollectionHeader_small 0x7FF w (by omega)]
    have hm : min n1 0x7FF = 0x7FF := by omega
    rw [hm]
    norm_num

/-- C7 witness: a count beyond the varint threshold. -/
theorem C7_witness :
    (0x1000 : Nat) < 2 ^ 32 ∧ (5 : Nat) < 2 ^ 32 ∧
    ((mkCollectionHeader 0x1000 false).length = 2 ↔ (0x1000 : Nat) < 0x0FFF) :=
  ⟨by norm_num, by norm_num, (C7_theorem 0x1000 5 false (by norm_num) (by norm_num)).1⟩

/-! ## C2 — the trailer written by `end` -/

/-- C2: for a successfully finished encoding (exactly one top-level
value, all collections closed), `end` appends: the fixed-up root value
word, and — exactly when that word is wide (4 bytes) — a 2-byte narrow
pointer word `value(4, kNarrow)` whose bytes are `[0x80, 0x02]`,
i.e. encoded offset 4/2 = 2.  Hence the final 2 bytes of the stream are
always a narrow value word that is the root or a narrow pointer to it. -/
theorem C2_theorem (out0 : List Nat) (strs : List (List Nat × StringInfo))
    (wk bk us sk : Bool) (tag : Nat) (keys : List KeySlice) (v : value) (wide : Bool) :
    endDoc { out := out0, stack := [⟨tag, [v], wide, keys⟩], writingKey := wk,
             blockedOnKey := bk, strings := strs, uniqueStrings := us, sortKeys := sk } =
      .ok { out := (if out0.length % 2 = 1 then out0 ++ [0] else out0) ++
              (if wide then
                wideBytes (fixValue (if out0.length % 2 = 1 then out0.length + 1 else out0.length)
                  kWide v) ++ [0x80, 0x02]
              else
                narrowBytes (fixValue (if out0.length % 2 = 1 then out0.length + 1 else out0.length)
                  kNarrow v)),
            stack := [], writingKey := wk, blockedOnKey := bk, strings := strs,
            uniqueStrings := us, sortKeys := sk } := by
  have hptr : narrowBytes (value.pointer 4 kNarrow) = [0x80, 0x02] := rfl
  by_cases hp : out0.length % 2 = 1 <;> by_cases hw : wide <;>
    simp [endDoc, nextWritePos, hp, hw, hptr]

/-! ## C4 — string interning

Helper characterizations of the primitive state transitions, used to
track the interning table and the output stream across arbitrary
operation sequences. -/

theorem mapOk {α β : Type} {f : α → β} {e : Except String α} {b : β}
    (h : Except.map f e = .ok b) : ∃ a, e = .ok a ∧ b = f a := by
  cases e with
  | error e => simp [Except.map] at h
  | ok a =>
    simp only [Except.map, Except.ok.injEq] at h
    exact ⟨a, rfl, h.symm⟩

theorem nextWritePos_spec (st : EncoderState) :
    (nextWritePos st).1 = { st with out := padEven st.out } ∧
    (nextWritePos st).2 = (padEven st.out).length := by
  unfold nextWritePos padEven
  by_cases hp : st.out.length % 2 = 1 <;> simp [hp]

/-- Complete characterization of a successful `addItem`. -/
theorem addItem_ok {v : value} {st st2 : EncoderState} (h : addItem v st = .ok st2) :
    ∃ f rest, st.stack = f :: rest ∧ st.blockedOnKey = false ∧
      st2.out = st.out ∧ st2.strings = st.strings ∧
      st2.uniqueStrings = st.uniqueStrings ∧ st2.sortKeys = st.sortKeys ∧
      st2.stack = { f with items := f.items ++ [v] } :: rest := by
  unfold addItem at h
  split at h
  · exact absurd h (by simp)
  next hbk =>
    split at h
    · exact absurd h (by simp)
    next f rest heq =>
      refine ⟨f, rest, heq, by simpa using hbk, ?_⟩
      split at h
      · have h2 := (Except.ok.inj h).symm
        subst h2
        exact ⟨rfl, rfl, rfl, rfl, rfl⟩
      · split at h
        · have h2 := (Except.ok.inj h).symm
          subst h2
          exact ⟨rfl, rfl, rfl, rfl, rfl⟩
        · have h2 := (Except.ok.inj h).symm
          subst h2
          exact ⟨rfl, rfl, rfl, rfl, rfl⟩

theorem setTopWide_fields (st : EncoderState) :
    (setTopWide st).out = st.out ∧ (setTopWide st).strings = st.strings ∧
    (setTopWide st).uniqueStrings = st.uniqueStrings ∧
    (setTopWide st).sortKeys = st.sortKeys := by
  unfold setTopWide
  split <;> simp

/-- `writeValue` never touches the interning table or the flags. -/
theorem writeValue_strings {tag : Nat} {buf : List Nat} {ci : Bool} {st st2 : EncoderState}
    (h : writeValue tag buf ci st = .ok st2) :
    st2.strings = st.strings ∧ st2.uniqueStrings = st.uniqueStrings ∧
    st2.sortKeys = st.sortKeys := by
  unfold writeValue at h
  split at h
  · exact absurd h (by simp)
  next b0 rest =>
    split at h
    · obtain ⟨a, ha, hb⟩ := mapOk h
      obtain ⟨f, frest, -, -, -, hstr, huq, hsk, -⟩ := addItem_ok ha
      subst hb
      split
      next =>
        obtain ⟨-, h1, h2, h3⟩ := setTopWide_fields a
        exact ⟨h1.trans hstr, h2.trans huq, h3.trans hsk⟩
      next => exact ⟨hstr, huq, hsk⟩
    · obtain ⟨a, ha, hb⟩ := mapOk h
      obtain ⟨f, frest, -, -, -, hstr, huq, hsk, -⟩ := addItem_ok ha
      subst hb
      have hnw := (nextWritePos_spec st).1
      rw [hnw] at hstr huq hsk
      exact ⟨hstr, huq, hsk⟩

/-- `writeDataTagged` never touches the interning table or the flags. -/
theorem writeDataTagged_strings {tag : Nat} {s : List Nat} {st : EncoderState}
    {p : EncoderState × KeySlice} (h : writeDataTagged tag s st = .ok p) :
    p.1.strings = st.strings ∧ p.1.uniqueStrings = st.uniqueStrings ∧
    p.1.sortKeys = st.sortKeys := by
  unfold writeDataTagged at h
  split at h
  · obtain ⟨a, ha, hb⟩ := mapOk h
    obtain ⟨h1, h2, h3⟩ := writeValue_strings ha
    subst hb
    exact ⟨h1, h2, h3⟩
  · obtain ⟨a, ha, hb⟩ := mapOk h
    obtain ⟨h1, h2, h3⟩ := writeValue_strings ha
    subst hb
    exact ⟨h1, h2, h3⟩

theorem lookupOffset_markKeyUsed (tbl : List (List Nat × StringInfo)) (s s2 : List Nat) :
    lookupOffset (markKeyUsed tbl s2) s = lookupOffset tbl s := by
  induction tbl with
  | nil => rfl
  | cons e rest ih =>
    obtain ⟨es, ei⟩ := e
    by_cases h2 : es = s2
    · subst h2
      by_cases h1 : es = s
      · subst h1
        simp [markKeyUsed, lookupOffset, lookupString]
      · simp [markKeyUsed, lookupOffset, lookupString, h1]
    · by_cases h1 : es = s
      · subst h1
        simp [markKeyUsed, lookupOffset, lookupString, h2]
      · simp only [markKeyUsed, if_neg h2]
        simp only [lookupOffset, lookupString, if_neg h1]
        exact ih

/-- `writeStringInternal` preserves the flags and every existing
interning-table offset. -/
theorem writeStringInternal_preserves {s : List Nat} {asKey : Bool} {st : EncoderState}
    {p : EncoderState × KeySlice} (h : writeStringInternal s asKey st = .ok p) :
    p.1.uniqueStrings = st.uniqueStrings ∧ p.1.sortKeys = st.sortKeys ∧
    (∀ s2 off, lookupOffset st.strings s2 = some off →
      lookupOffset p.1.strings s2 = some off) := by
  unfold writeStringInternal at h
  split at h
  next hcond =>
    split at h
    next info hlook =>
      obtain ⟨a, ha, hb⟩ := mapOk h
      obtain ⟨f, frest, -, -, -, hstr, huq, hsk, -⟩ := addItem_ok ha
      subst hb
      split
      next =>
        refine ⟨huq, hsk, fun s2 off hoff => ?_⟩
        simp only [hstr, lookupOffset_markKeyUsed]
        exact hoff
      next => exact ⟨huq, hsk, fun s2 off hoff => by rw [hstr]; exact hoff⟩
    next hlook =>
      obtain ⟨a, ha, hb⟩ := mapOk h
      obtain ⟨h1, h2, h3⟩ := writeDataTagged_strings ha
      have hnw := (nextWritePos_spec st).1
      rw [hnw] at h1 h2 h3
      subst hb
      split
      next sl hsl =>
        refine ⟨h2, h3, fun s2 off hoff => ?_⟩
        simp only [h1]
        have hne : s ≠ s2 := by
          intro he
          subst he
          rw [show lookupOffset st.strings s = none by
            unfold lookupOffset
            rw [hlook]
            rfl] at hoff
          simp at hoff
        simp only [lookupOffset, lookupString, if_neg hne]
        exact hoff
      next => exact ⟨h2, h3, fun s2 off hoff => by rw [h1]; exact hoff⟩
  · obtain ⟨h1, h2, h3⟩ := writeDataTagged_strings h
    exact ⟨h2, h3, fun s2 off hoff => by rw [h1]; exact hoff⟩

theorem pushTopKey_fields (ks : KeySlice) (st : EncoderState) :
    (pushTopKey ks st).strings = st.strings ∧
    (pushTopKey ks st).uniqueStrings = st.uniqueStrings ∧
    (pushTopKey ks st).sortKeys = st.sortKeys ∧
    (pushTopKey ks st).out = st.out := by
  unfold pushTopKey
  split <;> simp

theorem checkPointerWidths_snd (f : valueArray) (st : EncoderState) :
    (checkPointerWidths f st).2.strings = st.strings ∧
    (checkPointerWidths f st).2.uniqueStrings = st.uniqueStrings ∧
    (checkPointerWidths f st).2.sortKeys = st.sortKeys := by
  unfold checkPointerWidths
  split
  · exact ⟨rfl, rfl, rfl⟩
  · simp [(nextWritePos_spec st).1]

/-- `endCollection` preserves the table and flags. -/
theorem endCollection_preserves {tag : Nat} {st st2 : EncoderState}
    (h : endCollection tag st = .ok st2) :
    st2.strings = st.strings ∧ st2.uniqueStrings = st.uniqueStrings ∧
    st2.sortKeys = st.sortKeys := by
  unfold endCollection at h
  split at h
  · exact absurd h (by simp)
  next f rest heq =>
    split at h
    · exact absurd h (by simp)
    · split at h
      · exact absurd h (by simp)
      next =>
        obtain ⟨a, ha, hb⟩ := mapOk h
        obtain ⟨h1, h2, h3⟩ := writeValue_strings ha
        subst hb
        have hnw := (nextWritePos_spec a).1
        refine ⟨?_, ?_, ?_⟩ <;>
          simp [apply_ite EncoderState.strings, apply_ite EncoderState.uniqueStrings,
            apply_ite EncoderState.sortKeys, hnw, h1, h2, h3,
            checkPointerWidths_snd]

/-- `endDoc` preserves the table and flags. -/
theorem endDoc_preserves {st st2 : EncoderState} (h : endDoc st = .ok st2) :
    st2.strings = st.strings ∧ st2.uniqueStrings = st.uniqueStrings ∧
    st2.sortKeys = st.sortKeys := by
  rcases endDoc_ok_stack st st2 h with h2 | ⟨he, -⟩
  · unfold endDoc at h
    split at h
    · exact ⟨congrArg _ (Except.ok.inj h).symm, congrArg _ (Except.ok.inj h).symm,
        congrArg _ (Except.ok.inj h).symm⟩
    · split at h
      · exact absurd h (by simp)
      · split at h
        · exact absurd h (by simp)
        · split at h
          · have h3 := (Except.ok.inj h).symm
            subst h3
            exact ⟨rfl, rfl, rfl⟩
          · split at h <;>
              refine ⟨?_, ?_, ?_⟩ <;>
                simp [← Except.ok.inj h, (nextWritePos_spec st).1]
  · subst he
    exact ⟨rfl, rfl, rfl⟩

/-- One encoder operation preserves the flags and every recorded
interning offset. -/
theorem runOp_preserves (op : EncOp) (st st2 : EncoderState) (h : runOp op st = .ok st2) :
    st2.uniqueStrings = st.uniqueStrings ∧ st2.sortKeys = st.sortKeys ∧
    (∀ s off, lookupOffset st.strings s = some off → lookupOffset st2.strings s = some off) := by
  cases op with
  | wNull =>
    obtain ⟨f, rest, -, -, -, hstr, huq, hsk, -⟩ := addItem_ok h
    exact ⟨huq, hsk, fun s off hoff => by rw [hstr]; exact hoff⟩
  | wBool b =>
    obtain ⟨f, rest, -, -, -, hstr, huq, hsk, -⟩ := addItem_ok h
    exact ⟨huq, hsk, fun s off hoff => by rw [hstr]; exact hoff⟩
  | wInt i =>
    have h2 : writeInt64 (u64ofInt i) (decide (i < 2048 ∧ -2048 ≤ i)) false st = .ok st2 := h
    unfold writeInt64 at h2
    split at h2
    · obtain ⟨f, rest, -, -, -, hstr, huq, hsk, -⟩ := addItem_ok h2
      exact ⟨huq, hsk, fun s off hoff => by rw [hstr]; exact hoff⟩
    · obtain ⟨h1, h2, h3⟩ := writeValue_strings h2
      exact ⟨h2, h3, fun s off hoff => by rw [h1]; exact hoff⟩
  | wUInt u =>
    have h2 : writeInt64 (u % 2 ^ 64) (decide (u % 2 ^ 64 < 2048)) true st = .ok st2 := h
    unfold writeInt64 at h2
    split at h2
    · obtain ⟨f, rest, -, -, -, hstr, huq, hsk, -⟩ := addItem_ok h2
      exact ⟨huq, hsk, fun s off hoff => by rw [hstr]; exact hoff⟩
    · obtain ⟨h1, h2, h3⟩ := writeValue_strings h2
      exact ⟨h2, h3, fun s off hoff => by rw [h1]; exact hoff⟩
  | wString s =>
    obtain ⟨a, ha, hb⟩ := mapOk h
    obtain ⟨h1, h2, h3⟩ := writeStringInternal_preserves ha
    subst hb
    exact ⟨h1, h2, h3⟩
  | wData s =>
    obtain ⟨a, ha, hb⟩ := mapOk h
    obtain ⟨h1, h2, h3⟩ := writeDataTagged_strings ha
    subst hb
    exact ⟨h2, h3, fun s2 off hoff => by rw [h1]; exact hoff⟩
  | wKey s =>
    have h2 : writeKey s st = .ok st2 := h
    unfold writeKey at h2
    split at h2
    · split at h2
      · exact absurd h2 (by simp)
      · split at h2 <;> exact absurd h2 (by simp)
    · obtain ⟨a, ha, hb⟩ := mapOk h2
      obtain ⟨h1, h3, h4⟩ := writeStringInternal_preserves ha
      subst hb
      split
      next =>
        obtain ⟨p1, p2, p3, -⟩ := pushTopKey_fields a.2 a.1
        exact ⟨p2.trans h1, p3.trans h3, fun s2 off hoff => by rw [p1]; exact h4 s2 off hoff⟩
      next => exact ⟨h1, h3, h4⟩
  | beginArr =>
    have h2 : st2 = push kArrayTag st := (Except.ok.inj h).symm
    subst h2
    exact ⟨rfl, rfl, fun s off hoff => hoff⟩
  | beginDict =>
    have h2 : st2 = { push kDictTag st with writingKey := true, blockedOnKey := true } :=
      (Except.ok.inj h).symm
    subst h2
    exact ⟨rfl, rfl, fun s off hoff => hoff⟩
  | endArr => exact
      let p := endCollection_preserves h
      ⟨p.2.1, p.2.2, fun s off hoff => by rw [p.1]; exact hoff⟩
  | endDict =>
    have h2 : endDictionary st = .ok st2 := h
    unfold endDictionary at h2
    split at h2
    · exact absurd h2 (by simp)
    · exact
        let p := endCollection_preserves h2
        ⟨p.2.1, p.2.2, fun s off hoff => by rw [p.1]; exact hoff⟩
  | endD => exact
      let p := endDoc_preserves h
      ⟨p.2.1, p.2.2, fun s off hoff => by rw [p.1]; exact hoff⟩

/-- Operation sequences preserve the flags and recorded offsets. -/
theorem runOps_preserves (L : List EncOp) (st st2 : EncoderState)
    (h : runOps L st = .ok st2) :
    st2.uniqueStrings = st.uniqueStrings ∧ st2.sortKeys = st.sortKeys ∧
    (∀ s off, lookupOffset st.strings s = some off → lookupOffset st2.strings s = some off) := by
  induction L generalizing st with
  | nil =>
    have : st2 = st := (Except.ok.inj h).symm
    subst this
    exact ⟨rfl, rfl, fun s off hoff => hoff⟩
  | cons op L ih =>
    have h2 : (runOp op st).bind (fun st3 => runOps L st3) = .ok st2 := h
    cases hop : runOp op st with
    | error e => rw [hop] at h2; exact absurd h2 (by simp [Except.bind])
    | ok st3 =>
      rw [hop] at h2
      simp only [Except.bind] at h2
      obtain ⟨q1, q2, q3⟩ := runOp_preserves op st st3 hop
      obtain ⟨r1, r2, r3⟩ := ih st3 h2
      exact ⟨r1.trans q1, r2.trans q2, fun s off hoff => r3 s off (q3 s off hoff)⟩

theorem padEven_even (out : List Nat) : (padEven out).length % 2 = 0 := by
  unfold padEven
  split
  next h => simp only [List.length_append, List.length_cons, List.length_nil]; omega
  next h => omega

theorem nextWritePos_of_even (st : EncoderState) (h : st.out.length % 2 = 0) :
    nextWritePos st = (st, st.out.length) := by
  unfold nextWritePos
  rw [if_neg (by omega)]

/-- The intern-hit path of `writeStringInternal`: nothing is written to
the stream; a single (absolute, to be fixed up) pointer word to the
recorded offset is buffered, and with `asKey = false` the table is
untouched. -/
theorem writeStringInternal_hit {s : List Nat} {asKey : Bool} {st : EncoderState}
    {p : EncoderState × KeySlice} {info : StringInfo}
    (hu : st.uniqueStrings = true) (hl1 : kNarrow ≤ s.length)
    (hl2 : s.length ≤ kMaxSharedStringSize)
    (hlook : lookupString st.strings s = some info)
    (h : writeStringInternal s asKey st = .ok p) :
    p.1.out = st.out ∧
    (asKey = false → p.1.strings = st.strings ∧
      ∃ f rest, st.stack = f :: rest ∧
        p.1.stack = { f with items := f.items ++ [value.pointer info.offset kWide] } :: rest) := by
  unfold writeStringInternal at h
  rw [if_pos ⟨hu, hl1, hl2⟩, hlook] at h
  obtain ⟨a, ha, hb⟩ := mapOk h
  obtain ⟨f, rest, hstk, -, hout, hstr, -, -, hstk2⟩ := addItem_ok ha
  subst hb
  cases asKey with
  | false => exact ⟨hout, fun _ => ⟨hstr, f, rest, hstk, hstk2⟩⟩
  | true => exact ⟨hout, fun hc => by cases hc⟩

/-- The intern-hit path of `writeString`. -/
theorem writeString_hit {s : List Nat} {st st2 : EncoderState} {info : StringInfo}
    (hu : st.uniqueStrings = true) (hl1 : kNarrow ≤ s.length)
    (hl2 : s.length ≤ kMaxSharedStringSize)
    (hlook : lookupString st.strings s = some info)
    (h : writeString s st = .ok st2) :
    st2.out = st.out ∧ st2.strings = st.strings ∧
    ∃ f rest, st.stack = f :: rest ∧
      st2.stack = { f with items := f.items ++ [value.pointer info.offset kWide] } :: rest := by
  obtain ⟨p, hp, hps⟩ := mapOk h
  obtain ⟨h1, h2⟩ := writeStringInternal_hit hu hl1 hl2 hlook hp
  obtain ⟨h3, f, rest, hstk, hstk2⟩ := h2 rfl
  subst hps
  exact ⟨h1, h3, f, rest, hstk, hstk2⟩

/-- The intern-miss path of `writeString` for an internable string:
the padded stream gets the string header and the payload once, and the
table records the header's offset for the content. -/
theorem writeString_miss {s : List Nat} {st st2 : EncoderState}
    (hu : st.uniqueStrings = true) (hl1 : kNarrow ≤ s.length)
    (hl2 : s.length ≤ kMaxSharedStringSize)
    (hlook : lookupString st.strings s = none)
    (h : writeString s st = .ok st2) :
    st2.out = padEven st.out ++
      ((min s.length 0xF ||| (kStringTag <<< 4)) ::
        (if 0x0F ≤ s.length then PutUVarInt s.length else [])) ++ s ∧
    lookupOffset st2.strings s = some ((padEven st.out).length % 2 ^ 32) := by
  have hl1n : 2 ≤ s.length := hl1
  have c1 : ¬ (s.length < kNarrow) := by simp only [kNarrow]; omega
  have c2 : ¬ (s.length = 0) := by omega
  unfold writeString writeStringInternal at h
  rw [if_pos ⟨hu, hl1, hl2⟩, hlook] at h
  unfold writeDataTagged writeValue at h
  simp only [c1, c2, if_false, Bool.false_eq_true, false_and] at h
  have heven : ((nextWritePos st).1).out.length % 2 = 0 := by
    rw [(nextWritePos_spec st).1]
    exact padEven_even st.out
  rw [nextWritePos_of_even _ heven] at h
  obtain ⟨p, hp, hps⟩ := mapOk h
  obtain ⟨q, hq, hqs⟩ := mapOk hp
  obtain ⟨r, hr, hrs⟩ := mapOk hq
  obtain ⟨a, ha, hb⟩ := mapOk hr
  obtain ⟨f, frest, hstk, -, hout, hstr, -, -, -⟩ := addItem_ok ha
  subst hps hqs hrs hb
  have hpad1 := (nextWritePos_spec st).1
  have hpad2 := (nextWritePos_spec st).2
  constructor
  · show ((a.out ++ _) ++ s) = _
    rw [hout, hpad1]
  · show lookupOffset ((s, ⟨(nextWritePos st).2 % 2 ^ 32, false⟩) :: _) s = _
    simp only [lookupOffset, lookupString, eq_self_iff_true, if_true, Option.map_some']
    rw [hpad2]

/-- The intern-hit path of `writeKey` writes no bytes. -/
theorem writeKey_hit_out {s : List Nat} {st st2 : EncoderState} {info : StringInfo}
    (hu : st.uniqueStrings = true) (hl1 : kNarrow ≤ s.length)
    (hl2 : s.length ≤ kMaxSharedStringSize)
    (hlook : lookupString st.strings s = some info)
    (h : writeKey s st = .ok st2) :
    st2.out = st.out := by
  unfold writeKey at h
  split at h
  · split at h
    · exact absurd h (by simp)
    · split at h <;> exact absurd h (by simp)
  · obtain ⟨p, hp, hps⟩ := mapOk h
    have hout := (@writeStringInternal_hit s true { st with blockedOnKey := false } p info
      hu hl1 hl2 hlook hp).1
    subst hps
    split
    · obtain ⟨-, -, -, hpk⟩ := pushTopKey_fields p.2 p.1
      rw [hpk]
      exact hout
    · exact hout

/-- C4 counterexample: the claim covers "all string lengths", but a
16-byte string exceeds `kMaxSharedStringSize` (= 15), is never
interned, and its payload is emitted again on every write: two
`writeString` calls of the same 16-byte content produce the header and
payload twice, and the table records nothing. -/
theorem C4_counterexample :
    (runOps [.beginArr, .wString (List.replicate 16 97), .wString (List.replicate 16 97)]
        initEncoder).map (fun st => st.out) =
      .ok ([0x4F, 0x10] ++ List.replicate 16 97 ++ [0x4F, 0x10] ++ List.replicate 16 97) ∧
    (runOps [.beginArr, .wString (List.replicate 16 97), .wString (List.replicate 16 97)]
        initEncoder).map (fun st => lookupString st.strings (List.replicate 16 97)) =
      .ok none := by
  exact ⟨rfl, rfl⟩

/-- C4 (amended): with `uniqueStrings` on, interning applies exactly to
string payloads of length `kNarrow .. kMaxSharedStringSize` (2..15).
For such content: the first `writeString` emits the header and the
payload once at the next even offset and records that offset; after any
further successful operations, a `writeString` of the same content
appends *no* bytes and buffers only a pointer word to the recorded
first offset (whose table entry is unchanged), and likewise a
`writeKey` of the same content appends no bytes. -/
theorem C4_theorem (st : EncoderState) (s : List Nat)
    (hu : st.uniqueStrings = true) (hl1 : kNarrow ≤ s.length)
    (hl2 : s.length ≤ kMaxSharedStringSize) :
    (lookupString st.strings s = none →
      ∀ st2, writeString s st = .ok st2 →
        st2.out = padEven st.out ++
          ((min s.length 0xF ||| (kStringTag <<< 4)) ::
            (if 0x0F ≤ s.length then PutUVarInt s.length else [])) ++ s ∧
        lookupOffset st2.strings s = some ((padEven st.out).length % 2 ^ 32)) ∧
    (∀ off, lookupOffset st.strings s = some off →
      ∀ L st1 st2, runOps L st = .ok st1 → writeString s st1 = .ok st2 →
        lookupOffset st1.strings s = some off ∧
        st2.out = st1.out ∧
        ∃ f rest, st1.stack = f :: rest ∧
          st2.stack = { f with items := f.items ++ [value.pointer off kWide] } :: rest) ∧
    (∀ off, lookupOffset st.strings s = some off →
      ∀ L st1 st2, runOps L st = .ok st1 → writeKey s st1 = .ok st2 →
        st2.out = st1.out) := by
  refine ⟨?_, ?_, ?_⟩
  · intro hlook st2 h
    exact writeString_miss hu hl1 hl2 hlook h
  · intro off hoff L st1 st2 hrun hw
    obtain ⟨huq, -, hpres⟩ := runOps_preserves L st st1 hrun
    have hoff1 := hpres s off hoff
    obtain ⟨info, hinfo, hio⟩ := Option.map_eq_some'.mp hoff1
    obtain ⟨hout, hstr, f, rest, hstk, hstk2⟩ :=
      writeString_hit (huq.trans hu) hl1 hl2 hinfo hw
    rw [hio] at hstk2
    exact ⟨hoff1, hout, f, rest, hstk, hstk2⟩
  · intro off hoff L st1 st2 hrun hw
    obtain ⟨huq, -, hpres⟩ := runOps_preserves L st st1 hrun
    have hoff1 := hpres s off hoff
    obtain ⟨info, hinfo, -⟩ := Option.map_eq_some'.mp hoff1
    exact writeKey_hit_out (huq.trans hu) hl1 hl2 hinfo hw

/-- C4 witness: the 2-byte string "xy" on a fresh encoder. -/
theorem C4_witness :
    initEncoder.uniqueStrings = true ∧
    kNarrow ≤ ([120, 121] : List Nat).length ∧
    ([120, 121] : List Nat).length ≤ kMaxSharedStringSize ∧
    (lookupString initEncoder.strings [120, 121] = none →
      ∀ st2, writeString [120, 121] initEncoder = .ok st2 →
        st2.out = padEven initEncoder.out ++
          ((min ([120, 121] : List Nat).length 0xF ||| (kStringTag <<< 4)) ::
            (if 0x0F ≤ ([120, 121] : List Nat).length then
              PutUVarInt ([120, 121] : List Nat).length else [])) ++ [120, 121] ∧
        lookupOffset st2.strings [120, 121] =
          some ((padEven initEncoder.out).length % 2 ^ 32)) :=
  ⟨rfl, by decide, by decide,
   (C4_theorem initEncoder [120, 121] rfl (by decide) (by decide)).1⟩

/-! ## Claim C6: interior-node arity -/

theorem csOK_cons (b : Nat) (n : HNode) (rest : List (Nat × HNode)) :
    csOK ((b, n) :: rest) = (nodeOKb n && csOK rest) := by
  cases n <;> simp [csOK, nodeOKb]

theorem csOK_lookup {cs : List (Nat × HNode)} {b : Nat} {n : HNode}
    (hok : csOK cs = true) (h : lookupChild cs b = some n) : nodeOKb n = true := by
  induction cs with
  | nil => simp [lookupChild] at h
  | cons hd tl ih =>
    obtain ⟨b2, n2⟩ := hd
    rw [csOK_cons] at hok
    simp only [Bool.and_eq_true] at hok
    simp only [lookupChild] at h
    split at h
    · cases h; exact hok.1
    · exact ih hok.2 h

theorem lookupChild_ne_nil {cs : List (Nat × HNode)} {b : Nat} {n : HNode}
    (h : lookupChild cs b = some n) : cs ≠ [] := by
  cases cs with
  | nil => simp [lookupChild] at h
  | cons hd tl => simp

theorem addChild_ne_nil (cs : List (Nat × HNode)) (b : Nat) (n : HNode) :
    addChild cs b n ≠ [] := by
  cases cs with
  | nil => simp [addChild]
  | cons hd tl =>
    obtain ⟨b2, n2⟩ := hd
    simp only [addChild]
    split <;> simp

theorem replaceChild_ne_nil {cs : List (Nat × HNode)} (hne : cs ≠ []) (b : Nat) (n : HNode) :
    replaceChild cs b n ≠ [] := by
  cases cs with
  | nil => exact absurd rfl hne
  | cons hd tl =>
    obtain ⟨b2, n2⟩ := hd
    simp only [replaceChild]
    split <;> simp

theorem csOK_addChild {cs : List (Nat × HNode)} {n : HNode}
    (hok : csOK cs = true) (hn : nodeOKb n = true) (b : Nat) :
    csOK (addChild cs b n) = true := by
  induction cs with
  | nil => simp [addChild, csOK_cons, hn, csOK]
  | cons hd tl ih =>
    obtain ⟨b2, n2⟩ := hd
    rw [csOK_cons] at hok
    simp only [Bool.and_eq_true] at hok
    simp only [addChild]
    split
    · rw [csOK_cons, csOK_cons]
      simp [hn, hok.1, hok.2]
    · rw [csOK_cons]
      simp [hok.1, ih hok.2]

theorem csOK_replaceChild {cs : List (Nat × HNode)} {n : HNode}
    (hok : csOK cs = true) (hn : nodeOKb n = true) (b : Nat) :
    csOK (replaceChild cs b n) = true := by
  induction cs with
  | nil => simp [replaceChild, csOK]
  | cons hd tl ih =>
    obtain ⟨b2, n2⟩ := hd
    rw [csOK_cons] at hok
    simp only [Bool.and_eq_true] at hok
    simp only [replaceChild]
    split
    · rw [csOK_cons]
      simp [hn, hok.2]
    · rw [csOK_cons]
      simp [hok.1, ih hok.2]

theorem csOK_removeChild {cs : List (Nat × HNode)} (hok : csOK cs = true) (b : Nat) :
    csOK (removeChild cs b) = true := by
  induction cs with
  | nil => simpa [removeChild] using hok
  | cons hd tl ih =>
    obtain ⟨b2, n2⟩ := hd
    rw [csOK_cons] at hok
    simp only [Bool.and_eq_true] at hok
    simp only [removeChild]
    split
    · exact hok.2
    · rw [csOK_cons]
      simp [hok.1, ih hok.2]

theorem insertN_ok (h k v : Nat) : ∀ fuel shift cs cs2, 32 - shift ≤ fuel →
    csOK cs = true → insertN h k v shift cs = some cs2 →
    cs2 ≠ [] ∧ csOK cs2 = true := by
  intro fuel
  induction fuel with
  | zero =>
    intro shift cs cs2 hf hok hins
    rw [insertN] at hins
    rw [if_neg (by simp only [kBitShift]; omega)] at hins
    cases hins
  | succ fuel ih =>
    intro shift cs cs2 hf hok hins
    rw [insertN] at hins
    split at hins
    case isTrue hlt =>
      have hf2 : 32 - (shift + kBitShift) ≤ fuel := by
        simp only [kBitShift] at hlt ⊢; omega
      split at hins
      next hlook =>
        cases hins
        exact ⟨addChild_ne_nil _ _ _,
          csOK_addChild hok (show nodeOKb (.leaf h k v) = true from rfl) _⟩
      next h2 k2 v2 hlook =>
        by_cases hek : h2 = h ∧ k2 = k
        · rw [if_pos hek] at hins
          cases hins
          exact ⟨replaceChild_ne_nil (lookupChild_ne_nil hlook) _ _,
            csOK_replaceChild hok (show nodeOKb (.leaf h2 k2 v) = true from rfl) _⟩
        · rw [if_neg hek] at hins
          split at hins
          next hrec => cases hins
          next cs3 hrec =>
            cases hins
            obtain ⟨hne3, hok3⟩ := ih _ _ _ hf2
              (show csOK [(childBitNumber h2 (shift + kBitShift), .leaf h2 k2 v2)] = true
                by simp [csOK]) hrec
            exact ⟨replaceChild_ne_nil (lookupChild_ne_nil hlook) _ _,
              csOK_replaceChild hok
                (show nodeOKb (.interior cs3) = true by simp [nodeOKb, hne3, hok3]) _⟩
      next cs0 hlook =>
        split at hins
        next hrec => cases hins
        next cs3 hrec =>
          cases hins
          have hok0 : csOK cs0 = true := by
            have hl := csOK_lookup hok hlook
            simp only [nodeOKb, Bool.and_eq_true] at hl
            exact hl.2
          obtain ⟨hne3, hok3⟩ := ih _ _ _ hf2 hok0 hrec
          exact ⟨replaceChild_ne_nil (lookupChild_ne_nil hlook) _ _,
            csOK_replaceChild hok
              (show nodeOKb (.interior cs3) = true by simp [nodeOKb, hne3, hok3]) _⟩
    case isFalse => cases hins

theorem removeN_ok (h k : Nat) : ∀ fuel shift cs r, 32 - shift ≤ fuel →
    csOK cs = true → removeN h k shift cs = some r →
    csOK r.2 = true := by
  intro fuel
  induction fuel with
  | zero =>
    intro shift cs r hf hok hrem
    rw [removeN] at hrem
    rw [if_neg (by simp only [kBitShift]; omega)] at hrem
    cases hrem
  | succ fuel ih =>
    intro shift cs r hf hok hrem
    rw [removeN] at hrem
    split at hrem
    case isTrue hlt =>
      have hf2 : 32 - (shift + kBitShift) ≤ fuel := by
        simp only [kBitShift] at hlt ⊢; omega
      split at hrem
      next hlook =>
        cases hrem
        exact hok
      next h2 k2 v2 hlook =>
        by_cases hek : h2 = h ∧ k2 = k
        · rw [if_pos hek] at hrem
          cases hrem
          exact csOK_removeChild hok _
        · rw [if_neg hek] at hrem
          cases hrem
          exact hok
      next cs0 hlook =>
        have hok0 : csOK cs0 = true := by
          have hl := csOK_lookup hok hlook
          simp only [nodeOKb, Bool.and_eq_true] at hl
          exact hl.2
        split at hrem
        next hrec => cases hrem
        next x hrec =>
          cases hrem
          exact hok
        next hrec =>
          cases hrem
          exact csOK_removeChild hok _
        next cs3 hne hrec =>
          cases hrem
          have hok3 : csOK cs3 = true := ih _ _ _ hf2 hok0 hrec
          have hne2 : cs3.isEmpty = false := by
            cases cs3 with
            | nil => exact absurd rfl hne
            | cons a l => rfl
          exact csOK_replaceChild hok
            (show nodeOKb (.interior cs3) = true by simp [nodeOKb, hok3, hne2]) _
    case isFalse => cases hrem

theorem insert_csOK {hash : Nat → Nat} {t t2 : HAMTree} {k v : Nat}
    (hok : csOK (t.root.getD []) = true) (h : t.insert hash k v = some t2) :
    csOK (t2.root.getD []) = true := by
  unfold HAMTree.insert at h
  cases hins : insertN (hash k) k v 0 (t.root.getD []) with
  | none => rw [hins] at h; cases h
  | some cs2 =>
    rw [hins] at h
    cases h
    exact (insertN_ok (hash k) k v 32 0 _ _ (by omega) hok hins).2

theorem remove_csOK {hash : Nat → Nat} {t : HAMTree} {r : Bool × HAMTree} {k : Nat}
    (hok : csOK (t.root.getD []) = true) (h : t.remove hash k = some r) :
    csOK (r.2.root.getD []) = true := by
  unfold HAMTree.remove at h
  split at h
  next hroot => cases h; simpa using hok
  next cs hroot =>
    cases hrem : removeN (hash k) k 0 cs with
    | none => rw [hrem] at h; cases h
    | some p =>
      rw [hrem] at h
      cases h
      have hok0 : csOK cs = true := by rw [hroot] at hok; simpa using hok
      exact removeN_ok (hash k) k 32 0 _ _ (by omega) hok0 hrem

theorem runHOps_csOK (hash : Nat → Nat) : ∀ L (t t2 : HAMTree),
    csOK (t.root.getD []) = true → runHOps hash t L = some t2 →
    csOK (t2.root.getD []) = true := by
  intro L
  induction L with
  | nil =>
    intro t t2 hok h
    simp only [runHOps, List.foldlM] at h
    cases h
    exact hok
  | cons op L ih =>
    intro t t2 hok h
    simp only [runHOps, List.foldlM] at h
    cases op with
    | ins k v =>
      simp only [Option.bind_eq_bind] at h
      cases hstep : t.insert hash k v with
      | none => rw [hstep] at h; cases h
      | some t1 =>
        rw [hstep] at h
        simp only [Option.some_bind] at h
        exact ih t1 t2 (insert_csOK hok hstep) h
    | rem k =>
      simp only [Option.bind_eq_bind] at h
      cases hstep : t.remove hash k with
      | none => rw [hstep] at h; cases h
      | some r =>
        rw [hstep] at h
        simp only [Option.map_some', Option.some_bind] at h
        exact ih r.2 t2 (remove_csOK hok hstep) h

/-- C6 counterexample: with `hash = id`, inserting keys 0 and 4096
(which share their low 12 hash bits) chains two interior nodes, the
outer of which holds exactly one child; and removing 4096 afterwards
leaves two nested single-child interior nodes above the remaining
leaf — removal only deletes interior nodes that became empty, it never
collapses single-child ones. -/
theorem C6_counterexample :
    ((insertList (fun k => k) HAMTree.empty [(0, 1), (4096, 2)]).map
        (fun t => csHasSingle (t.root.getD []))) = some true ∧
    ((insertList (fun k => k) HAMTree.empty [(0, 1), (4096, 2)]).bind
        (fun t => (t.remove (fun k => k) 4096).map
          (fun r => (r.1, csHasSingle (r.2.root.getD []))))) = some (true, true) := by
  constructor <;>
    simp [insertList, HAMTree.empty, HAMTree.insert, HAMTree.remove, insertN, removeN,
      childBitNumber, lookupChild, addChild, replaceChild, removeChild, kBitShift,
      csHasSingle]

/-- C6 (amended): after any successful sequence of insert/remove
operations starting from the empty tree, every interior node holds at
least one child: insert never creates an empty interior node, and
remove deletes from its parent any interior node whose bitmap became
zero.  (Interior nodes with exactly one child do occur, so the bound
"at least two" does not hold.) -/
theorem C6_theorem (hash : Nat → Nat) (L : List HOp) (t : HAMTree)
    (h : runHOps hash HAMTree.empty L = some t) :
    csOK (t.root.getD []) = true :=
  runHOps_csOK hash L HAMTree.empty t (by simp [HAMTree.empty, csOK]) h

/-- C6 witness: a single insert into the empty tree. -/
theorem C6_witness :
    runHOps (fun k => k) HAMTree.empty [.ins 0 1] = some ⟨some [(0, .leaf 0 0 1)]⟩ ∧
    csOK ((⟨some [(0, .leaf 0 0 1)]⟩ : HAMTree).root.getD []) = true := by
  have hrun : runHOps (fun k => k) HAMTree.empty [.ins 0 1] =
      some ⟨some [(0, .leaf 0 0 1)]⟩ := by
    simp [runHOps, HAMTree.empty, HAMTree.insert, insertN, childBitNumber, lookupChild,
      addChild, kBitShift, List.foldlM]
  exact ⟨hrun, C6_theorem (fun k => k) [.ins 0 1] ⟨some [(0, .leaf 0 0 1)]⟩ hrun⟩

/-! ## Claim C1: dictionary key sorting -/

theorem sliceCompare_self (a : List Nat) : sliceCompare a a = .eq := by
  induction a with
  | nil => rfl
  | cons x xs ih => simp [sliceCompare, ih]

theorem sliceCompare_eq_iff : ∀ a b : List Nat, sliceCompare a b = .eq ↔ a = b := by
  intro a
  induction a with
  | nil => intro b; cases b <;> simp [sliceCompare]
  | cons x xs ih =>
    intro b
    cases b with
    | nil => simp [sliceCompare]
    | cons y ys =>
      simp only [sliceCompare]
      by_cases h1 : x < y
      · simp [h1]; omega
      · by_cases h2 : y < x
        · simp [h1, h2]; omega
        · have hxy : x = y := by omega
          simp [h1, h2, hxy, ih ys]

theorem sliceCompare_swap : ∀ a b : List Nat,
    sliceCompare b a = (sliceCompare a b).swap := by
  intro a
  induction a with
  | nil => intro b; cases b <;> rfl
  | cons x xs ih =>
    intro b
    cases b with
    | nil => rfl
    | cons y ys =>
      simp only [sliceCompare]
      by_cases h1 : x < y
      · simp [h1, show ¬ y < x by omega, Ordering.swap]
      · by_cases h2 : y < x
        · simp [h1, h2, Ordering.swap]
        · simp [h1, h2, ih ys]

theorem sliceCompare_lt_trans : ∀ a b c : List Nat,
    sliceCompare a b = .lt → sliceCompare b c = .lt → sliceCompare a c = .lt := by
  intro a
  induction a with
  | nil =>
    intro b c hab hbc
    cases b with
    | nil => exact hbc
    | cons y ys =>
      cases c with
      | nil => simp [sliceCompare] at hbc
      | cons z zs => rfl
  | cons x xs ih =>
    intro b c hab hbc
    cases b with
    | nil => simp [sliceCompare] at hab
    | cons y ys =>
      cases c with
      | nil => simp [sliceCompare] at hbc
      | cons z zs =>
        simp only [sliceCompare] at hab hbc ⊢
        by_cases h1 : x < y
        · by_cases h2 : y < z
          · simp [show x < z by omega]
          · by_cases h3 : z < y
            · simp [h2, h3] at hbc
            · have : y = z := by omega
              simp [show x < z by omega]
        · by_cases h4 : y < x
          · simp [h1, h4] at hab
          · have hxy : x = y := by omega
            subst hxy
            by_cases h2 : x < z
            · simp [h2]
            · by_cases h3 : z < x
              · simp [h2, h3] at hbc
              · have hxz : x = z := by omega
                subst hxz
                simp only [if_neg h1, if_neg h4] at hab
                simp only [if_neg h2, if_neg h3] at hbc
                simp only [if_neg h2, if_neg h3]
                exact ih ys zs hab hbc

theorem sliceCompare_le_total (a b : List Nat) :
    sliceCompare a b ≠ Ordering.gt ∨ sliceCompare b a ≠ Ordering.gt := by
  rw [sliceCompare_swap a b]
  cases sliceCompare a b <;> simp [Ordering.swap]

theorem sliceCompare_le_trans {a b c : List Nat}
    (hab : sliceCompare a b ≠ Ordering.gt) (hbc : sliceCompare b c ≠ Ordering.gt) :
    sliceCompare a c ≠ Ordering.gt := by
  cases h1 : sliceCompare a b with
  | gt => exact absurd h1 hab
  | eq => rw [(sliceCompare_eq_iff a b).mp h1]; exact hbc
  | lt =>
    cases h2 : sliceCompare b c with
    | gt => exact absurd h2 hbc
    | eq => rw [← (sliceCompare_eq_iff b c).mp h2]; simp [h1]
    | lt => simp [sliceCompare_lt_trans a b c h1 h2]

theorem resolveKeys_length (items : List value) (keys : List KeySlice) :
    (resolveKeys items keys).length = keys.length := by
  simp [resolveKeys]

theorem idx_perm_sorted (rk : List (List Nat)) (n : Nat) :
    (List.range n).Perm ((List.range n).insertionSort
      (fun i j => sliceCompare (rk.getD i []) (rk.getD j []) ≠ Ordering.gt)) ∧
    List.Sorted (fun i j => sliceCompare (rk.getD i []) (rk.getD j []) ≠ Ordering.gt)
      ((List.range n).insertionSort
        (fun i j => sliceCompare (rk.getD i []) (rk.getD j []) ≠ Ordering.gt)) := by
  haveI : IsTotal Nat (fun i j => sliceCompare (rk.getD i []) (rk.getD j []) ≠ Ordering.gt) :=
    ⟨fun i j => sliceCompare_le_total _ _⟩
  haveI : IsTrans Nat (fun i j => sliceCompare (rk.getD i []) (rk.getD j []) ≠ Ordering.gt) :=
    ⟨fun i j k => sliceCompare_le_trans⟩
  exact ⟨(List.perm_insertionSort _ _).symm, List.sorted_insertionSort _ _⟩

theorem chain_of_sorted {rk : List (List Nat)} {idx : List Nat} {n : Nat}
    (hnd : rk.Nodup) (hlen : rk.length = n)
    (hperm : (List.range n).Perm idx)
    (hsorted : List.Sorted
      (fun i j => sliceCompare (rk.getD i []) (rk.getD j []) ≠ Ordering.gt) idx) :
    (idx.map (fun j => rk.getD j [])).Chain'
      (fun a b => sliceCompare a b = Ordering.lt) := by
  have hmem : ∀ j ∈ idx, j < n := by
    intro j hj
    have := hperm.symm.subset hj
    simpa using this
  have hnodup : idx.Nodup := hperm.nodup (List.nodup_range n)
  have hpw : idx.Pairwise
      (fun i j => (sliceCompare (rk.getD i []) (rk.getD j []) ≠ Ordering.gt) ∧ i ≠ j) :=
    hsorted.and hnodup
  have hpw2 : idx.Pairwise
      (fun i j => sliceCompare (rk.getD i []) (rk.getD j []) = Ordering.lt) := by
    refine hpw.imp_of_mem ?_
    intro i j hi hj ⟨hrij, hne⟩
    have hiN : i < n := hmem i hi
    have hjN : j < n := hmem j hj
    have hkey : rk.getD i [] ≠ rk.getD j [] := by
      intro heq
      have hleni : i < rk.length := by omega
      have hlenj : j < rk.length := by omega
      rw [List.getD_eq_getElem _ _ hleni, List.getD_eq_getElem _ _ hlenj] at heq
      exact hne (hnd.getElem_inj_iff.mp heq)
    cases hcmp : sliceCompare (rk.getD i []) (rk.getD j []) with
    | lt => rfl
    | eq => exact absurd ((sliceCompare_eq_iff _ _).mp hcmp) hkey
    | gt => exact absurd hcmp hrij
  rw [List.chain'_map]
  exact hpw2.chain'

/-- C1 (confirmed): `sortDict` emits the dict's `(key, value)` word
pairs in an order `idx` that is a permutation of the write order, with
the resolved key byte slices strictly ascending along `idx` in unsigned
byte-lexicographic order, provided the resolved keys are pairwise
distinct and the frame holds exactly two item words per key. -/
theorem C1_theorem (items : List value) (keys : List KeySlice)
    (hlen : items.length = 2 * keys.length)
    (hnd : (resolveKeys items keys).Nodup) :
    ∃ idx : List Nat, (List.range keys.length).Perm idx ∧
      sortDictItems items keys =
        idx.flatMap (fun j => [items.getD (2 * j) vzero, items.getD (2 * j + 1) vzero]) ∧
      (idx.map (fun j => (resolveKeys items keys).getD j [])).Chain'
        (fun a b => sliceCompare a b = Ordering.lt) := by
  by_cases hsmall : keys.length < 2
  · refine ⟨List.range keys.length, List.Perm.refl _, ?_, ?_⟩
    · unfold sortDictItems
      rw [if_pos hsmall]
      cases hkn : keys.length with
      | zero =>
        have h0 : items = [] := List.length_eq_zero.mp (by omega)
        rw [h0]
        simp
      | succ m =>
        have hm : m = 0 := by omega
        subst hm
        have h2 : items.length = 2 := by omega
        match items, h2 with
        | [v0, v1], _ => simp [List.range_succ]
    · cases hkn : keys.length with
      | zero => simp [List.range_zero]
      | succ m =>
        have hm : m = 0 := by omega
        subst hm
        simp [List.range_succ]
  · obtain ⟨hperm, hsorted⟩ := idx_perm_sorted (resolveKeys items keys) keys.length
    refine ⟨_, hperm, ?_, ?_⟩
    · unfold sortDictItems
      rw [if_neg hsmall]
    · exact chain_of_sorted hnd (resolveKeys_length items keys) hperm hsorted

/-- C1 witness: a two-key dict written in descending order ("b" then "a"). -/
theorem C1_witness :
    ([⟨1,0,0,0⟩, ⟨2,0,0,0⟩, ⟨3,0,0,0⟩, ⟨4,0,0,0⟩] : List value).length =
      2 * ([⟨some [98], 1⟩, ⟨some [97], 1⟩] : List KeySlice).length ∧
    (resolveKeys [⟨1,0,0,0⟩, ⟨2,0,0,0⟩, ⟨3,0,0,0⟩, ⟨4,0,0,0⟩]
      [⟨some [98], 1⟩, ⟨some [97], 1⟩]).Nodup ∧
    ∃ idx : List Nat,
      (List.range ([⟨some [98], 1⟩, ⟨some [97], 1⟩] : List KeySlice).length).Perm idx ∧
      sortDictItems [⟨1,0,0,0⟩, ⟨2,0,0,0⟩, ⟨3,0,0,0⟩, ⟨4,0,0,0⟩]
          [⟨some [98], 1⟩, ⟨some [97], 1⟩] =
        idx.flatMap (fun j =>
          [([⟨1,0,0,0⟩, ⟨2,0,0,0⟩, ⟨3,0,0,0⟩, ⟨4,0,0,0⟩] : List value).getD (2 * j) vzero,
           ([⟨1,0,0,0⟩, ⟨2,0,0,0⟩, ⟨3,0,0,0⟩, ⟨4,0,0,0⟩] : List value).getD (2 * j + 1) vzero]) ∧
      (idx.map (fun j => (resolveKeys [⟨1,0,0,0⟩, ⟨2,0,0,0⟩, ⟨3,0,0,0⟩, ⟨4,0,0,0⟩]
          [⟨some [98], 1⟩, ⟨some [97], 1⟩]).getD j [])).Chain'
        (fun a b => sliceCompare a b = Ordering.lt) :=
  ⟨by decide, by decide,
   C1_theorem [⟨1,0,0,0⟩, ⟨2,0,0,0⟩, ⟨3,0,0,0⟩, ⟨4,0,0,0⟩]
     [⟨some [98], 1⟩, ⟨some [97], 1⟩] (by decide) (by decide)⟩

/-! ## Claim C3 development -/

/-- The leaf triples `(hash, key, val)` of a child list, in structure
order. -/
def csLeaves : List (Nat × HNode) → List (Nat × Nat × Nat)
  | [] => []
  | (_, .leaf h k v) :: rest => (h, k, v) :: csLeaves rest
  | (_, .interior cs) :: rest => csLeaves cs ++ csLeaves rest

/-- The leaf triples of one node. -/
def nodeLeaves : HNode → List (Nat × Nat × Nat)
  | .leaf h k v => [(h, k, v)]
  | .interior cs => csLeaves cs

theorem csLeaves_cons (b : Nat) (n : HNode) (rest : List (Nat × HNode)) :
    csLeaves ((b, n) :: rest) = nodeLeaves n ++ csLeaves rest := by
  cases n <;> simp [csLeaves, nodeLeaves]

/-- Structural invariant of a node sitting in slot `b` of a child list
at hash-shift level `s`: every leaf below it has `b` as its level-`s`
hash digit, and an interior node is at depth that still admits one more
descent (`s + 2*kBitShift < 32`), with distinct slot numbers and good
children one level down. -/
inductive GoodNode : Nat → Nat → HNode → Prop where
  | leaf : ∀ s b h k v, childBitNumber h s = b → GoodNode s b (.leaf h k v)
  | interior : ∀ s b cs,
      (∀ t ∈ csLeaves cs, childBitNumber t.1 s = b) →
      s + 2 * kBitShift < 32 →
      (cs.map Prod.fst).Nodup →
      (∀ p ∈ cs, GoodNode (s + kBitShift) p.1 p.2) →
      GoodNode s b (.interior cs)

/-- Invariant of a whole child list at level `s`. -/
def GoodCs (s : Nat) (cs : List (Nat × HNode)) : Prop :=
  (cs.map Prod.fst).Nodup ∧ ∀ p ∈ cs, GoodNode s p.1 p.2

theorem GoodCs_cons {s b : Nat} {n : HNode} {rest : List (Nat × HNode)} :
    GoodCs s ((b, n) :: rest) ↔
      b ∉ rest.map Prod.fst ∧ GoodNode s b n ∧ GoodCs s rest := by
  unfold GoodCs
  simp only [List.map_cons, List.nodup_cons, List.mem_cons, forall_eq_or_imp]
  constructor
  · rintro ⟨⟨h1, h2⟩, h3, h4⟩
    exact ⟨h1, h3, h2, h4⟩
  · rintro ⟨h1, h3, h2, h4⟩
    exact ⟨⟨h1, h2⟩, h3, h4⟩

theorem lookupChild_none_iff {cs : List (Nat × HNode)} {b : Nat} :
    lookupChild cs b = none ↔ b ∉ cs.map Prod.fst := by
  induction cs with
  | nil => simp [lookupChild]
  | cons hd tl ih =>
    obtain ⟨b2, n2⟩ := hd
    simp only [lookupChild, List.map_cons, List.mem_cons]
    by_cases hb : b2 = b
    · simp [hb]
    · simp only [if_neg hb, ih]
      constructor
      · intro hh
        exact fun hc => hc.elim (fun he => hb he.symm) hh
      · intro hh
        exact fun hc => hh (Or.inr hc)

theorem lookupChild_mem {cs : List (Nat × HNode)} {b : Nat} {n : HNode}
    (h : lookupChild cs b = some n) : (b, n) ∈ cs := by
  induction cs with
  | nil => simp [lookupChild] at h
  | cons hd tl ih =>
    obtain ⟨b2, n2⟩ := hd
    simp only [lookupChild] at h
    split at h
    next hb => cases h; subst hb; exact List.mem_cons_self _ _
    next hb => exact List.mem_cons_of_mem _ (ih h)

theorem lookupChild_leaves_sub {cs : List (Nat × HNode)} {b : Nat} {n : HNode}
    (h : lookupChild cs b = some n) :
    ∀ t ∈ nodeLeaves n, t ∈ csLeaves cs := by
  induction cs with
  | nil => simp [lookupChild] at h
  | cons hd tl ih =>
    obtain ⟨b2, n2⟩ := hd
    simp only [lookupChild] at h
    rw [csLeaves_cons]
    split at h
    next hb =>
      cases h
      intro t ht
      exact List.mem_append_left _ ht
    next hb =>
      intro t ht
      exact List.mem_append_right _ (ih h t ht)

theorem addChild_mapFst (cs : List (Nat × HNode)) (b : Nat) (n : HNode) :
    ((addChild cs b n).map Prod.fst).Perm (b :: cs.map Prod.fst) := by
  induction cs with
  | nil => simp [addChild]
  | cons hd tl ih =>
    obtain ⟨b2, n2⟩ := hd
    simp only [addChild]
    split
    · simp
    · simp only [List.map_cons]
      exact (ih.cons b2).trans (List.Perm.swap _ _ _)

theorem addChild_leaves (cs : List (Nat × HNode)) (b : Nat) (n : HNode) :
    (csLeaves (addChild cs b n)).Perm (nodeLeaves n ++ csLeaves cs) := by
  induction cs with
  | nil => simp [addChild, csLeaves_cons, csLeaves]
  | cons hd tl ih =>
    obtain ⟨b2, n2⟩ := hd
    simp only [addChild]
    split
    · simp [csLeaves_cons]
    · rw [csLeaves_cons, csLeaves_cons]
      refine List.Perm.trans (ih.append_left _) ?_
      rw [← List.append_assoc, ← List.append_assoc]
      exact List.perm_append_comm.append_right _

theorem addChild_members {cs : List (Nat × HNode)} {b : Nat} {n : HNode} :
    ∀ p ∈ addChild cs b n, p = (b, n) ∨ p ∈ cs := by
  induction cs with
  | nil => simp [addChild]
  | cons hd tl ih =>
    obtain ⟨b2, n2⟩ := hd
    simp only [addChild]
    split
    · intro p hp
      simpa using hp
    · intro p hp
      rcases List.mem_cons.mp hp with he | hm
      · exact Or.inr (he ▸ List.mem_cons_self _ _)
      · rcases ih p hm with h1 | h2
        · exact Or.inl h1
        · exact Or.inr (List.mem_cons_of_mem _ h2)

theorem replaceChild_mapFst (cs : List (Nat × HNode)) (b : Nat) (n : HNode) :
    (replaceChild cs b n).map Prod.fst = cs.map Prod.fst := by
  induction cs with
  | nil => rfl
  | cons hd tl ih =>
    obtain ⟨b2, n2⟩ := hd
    simp only [replaceChild]
    split
    next hb => subst hb; simp
    next hb => simp [ih]

theorem replaceChild_leaves {cs : List (Nat × HNode)} {b : Nat} {n : HNode} (n2 : HNode)
    (hl : lookupChild cs b = some n) :
    (nodeLeaves n ++ csLeaves (replaceChild cs b n2)).Perm
      (nodeLeaves n2 ++ csLeaves cs) := by
  induction cs with
  | nil => simp [lookupChild] at hl
  | cons hd tl ih =>
    obtain ⟨b3, n3⟩ := hd
    simp only [lookupChild] at hl
    simp only [replaceChild]
    split
    next hb =>
      rw [if_pos hb] at hl
      cases hl
      rw [csLeaves_cons, csLeaves_cons]
      rw [← List.append_assoc, ← List.append_assoc]
      exact List.perm_append_comm.append_right _
    next hb =>
      rw [if_neg hb] at hl
      rw [csLeaves_cons, csLeaves_cons]
      refine List.Perm.trans ?_ ((ih hl).append_left (nodeLeaves n3)) |>.trans ?_
      · rw [← List.append_assoc, ← List.append_assoc]
        exact List.perm_append_comm.append_right _
      · rw [← List.append_assoc, ← List.append_assoc]
        exact List.perm_append_comm.append_right _

theorem replaceChild_members {cs : List (Nat × HNode)} {b : Nat} {n : HNode} :
    ∀ p ∈ replaceChild cs b n, p = (b, n) ∨ p ∈ cs := by
  induction cs with
  | nil => simp [replaceChild]
  | cons hd tl ih =>
    obtain ⟨b2, n2⟩ := hd
    simp only [replaceChild]
    split
    next hb =>
      intro p hp
      rcases List.mem_cons.mp hp with he | hm
      · subst hb; exact Or.inl he
      · exact Or.inr (List.mem_cons_of_mem _ hm)
    next hb =>
      intro p hp
      rcases List.mem_cons.mp hp with he | hm
      · exact Or.inr (he ▸ List.mem_cons_self _ _)
      · rcases ih p hm with h1 | h2
        · exact Or.inl h1
        · exact Or.inr (List.mem_cons_of_mem _ h2)

theorem removeChild_mapFst_sub {cs : List (Nat × HNode)} {b : Nat} :
    ∀ x ∈ (removeChild cs b).map Prod.fst, x ∈ cs.map Prod.fst := by
  induction cs with
  | nil => simp [removeChild]
  | cons hd tl ih =>
    obtain ⟨b2, n2⟩ := hd
    simp only [removeChild]
    split
    · intro x hx
      exact List.mem_cons_of_mem _ hx
    · intro x hx
      simp only [List.map_cons, List.mem_cons] at hx ⊢
      rcases hx with he | hm
      · exact Or.inl he
      · exact Or.inr (ih x hm)

theorem removeChild_sublist (cs : List (Nat × HNode)) (b : Nat) :
    (removeChild cs b).Sublist cs := by
  induction cs with
  | nil => simp [removeChild]
  | cons hd tl ih =>
    obtain ⟨b2, n2⟩ := hd
    simp only [removeChild]
    split
    · exact List.sublist_cons_self _ _
    · exact ih.cons₂ _

theorem removeChild_mapFst_nodup {cs : List (Nat × HNode)} {b : Nat}
    (h : (cs.map Prod.fst).Nodup) : ((removeChild cs b).map Prod.fst).Nodup :=
  ((removeChild_sublist cs b).map Prod.fst).nodup h

theorem removeChild_leaves {cs : List (Nat × HNode)} {b : Nat} {n : HNode}
    (hl : lookupChild cs b = some n) :
    (nodeLeaves n ++ csLeaves (removeChild cs b)).Perm (csLeaves cs) := by
  induction cs with
  | nil => simp [lookupChild] at hl
  | cons hd tl ih =>
    obtain ⟨b3, n3⟩ := hd
    simp only [lookupChild] at hl
    simp only [removeChild]
    split
    next hb =>
      rw [if_pos hb] at hl
      cases hl
      rw [csLeaves_cons]
    next hb =>
      rw [if_neg hb] at hl
      rw [csLeaves_cons, csLeaves_cons]
      refine List.Perm.trans ?_ ((ih hl).append_left (nodeLeaves n3))
      rw [← List.append_assoc, ← List.append_assoc]
      exact List.perm_append_comm.append_right _

theorem itemCountCs_eq_leaves (cs : List (Nat × HNode)) :
    itemCountCs cs = (csLeaves cs).length := by
  induction cs using itemCountCs.induct with
  | case1 => simp [itemCountCs, csLeaves]
  | case2 b h k v rest ih =>
    simp [itemCountCs, csLeaves, ih]
    omega
  | case3 b cs0 rest ih0 ih =>
    simp [itemCountCs, csLeaves, ih, ih0]

theorem childBitNumber_zero (h : Nat) : childBitNumber h 0 = h % 64 := by
  simp [childBitNumber]

theorem childBitNumber_shift (h s t : Nat) :
    childBitNumber (h >>> s) t = childBitNumber h (s + t) := by
  simp [childBitNumber, Nat.shiftRight_add]

theorem mod_eq_of_digits_eq : ∀ (m h h2 : Nat),
    (∀ d, d < m → childBitNumber h (6 * d) = childBitNumber h2 (6 * d)) →
    h % 2 ^ (6 * m) = h2 % 2 ^ (6 * m) := by
  intro m
  induction m with
  | zero => intro h h2 _; simp [Nat.mod_one]
  | succ m ih =>
    intro h h2 hd
    have h0 : h % 64 = h2 % 64 := by
      have h00 := hd 0 (by omega)
      simpa [childBitNumber] using h00
    have hrec : (h >>> 6) % 2 ^ (6 * m) = (h2 >>> 6) % 2 ^ (6 * m) := by
      refine ih _ _ ?_
      intro d hdm
      have hdd := hd (d + 1) (by omega)
      rw [childBitNumber_shift, childBitNumber_shift]
      rw [show 6 * (d + 1) = 6 + 6 * d by ring] at hdd
      exact hdd
    have hsplit : ∀ x : Nat, x % 2 ^ (6 * (m + 1)) = x % 64 + 64 * ((x >>> 6) % 2 ^ (6 * m)) := by
      intro x
      have e1 : (6 : Nat) * (m + 1) = 6 + 6 * m := by ring
      rw [e1, pow_add]
      have e2 : (2 : Nat) ^ 6 = 64 := by norm_num
      rw [e2]
      have e3 : x >>> 6 = x / 64 := by
        rw [Nat.shiftRight_eq_div_pow]
      rw [e3]
      exact Nat.mod_mul
    rw [hsplit h, hsplit h2, h0, hrec]

theorem digits_diverge {h h2 : Nat} (hne : h % 2 ^ 30 ≠ h2 % 2 ^ 30) :
    ∃ d, d < 5 ∧ childBitNumber h (6 * d) ≠ childBitNumber h2 (6 * d) := by
  by_contra hc
  push_neg at hc
  exact hne (by
    have := mod_eq_of_digits_eq 5 h h2 (fun d hd => hc d hd)
    simpa using this)

theorem goodNode_leaf_digit {s b : Nat} {n : HNode} (hg : GoodNode s b n) :
    ∀ t ∈ nodeLeaves n, childBitNumber t.1 s = b := by
  cases hg with
  | leaf s b h k v hd =>
    intro t ht
    simp only [nodeLeaves, List.mem_singleton] at ht
    subst ht
    exact hd
  | interior s b cs hdig _ _ _ =>
    intro t ht
    exact hdig t (by simpa [nodeLeaves] using ht)

theorem slot_of_mem {s : Nat} {cs : List (Nat × HNode)} {t : Nat × Nat × Nat}
    (hg : GoodCs s cs) (hm : t ∈ csLeaves cs) :
    ∃ n, lookupChild cs (childBitNumber t.1 s) = some n ∧ t ∈ nodeLeaves n := by
  induction cs with
  | nil => simp [csLeaves] at hm
  | cons hd tl ih =>
    obtain ⟨b2, n2⟩ := hd
    obtain ⟨hnotin, hgn, hgtl⟩ := GoodCs_cons.mp hg
    rw [csLeaves_cons] at hm
    rcases List.mem_append.mp hm with hm1 | hm2
    · have hd2 : childBitNumber t.1 s = b2 := goodNode_leaf_digit hgn t hm1
      refine ⟨n2, ?_, hm1⟩
      simp [lookupChild, hd2]
    · obtain ⟨n, hlook, hmem⟩ := ih hgtl hm2
      refine ⟨n, ?_, hmem⟩
      simp only [lookupChild]
      split
      next hb =>
        exfalso
        have : (childBitNumber t.1 s, n) ∈ tl := lookupChild_mem hlook
        have : childBitNumber t.1 s ∈ tl.map Prod.fst :=
          List.mem_map_of_mem Prod.fst this
        rw [← hb] at this
        exact hnotin this
      next hb => exact hlook

theorem findN_good : ∀ m cs, sizeOf cs ≤ m → ∀ s (t : Nat × Nat × Nat),
    GoodCs s cs → t ∈ csLeaves cs →
    findN cs (t.1 >>> s) = some t := by
  intro m
  induction m with
  | zero =>
    intro cs hsz
    cases cs with
    | nil => intro s t _ hm; simp [csLeaves] at hm
    | cons hd tl => simp at hsz
  | succ m ih =>
    intro cs hsz s t hg hm
    obtain ⟨n, hlook, hmem⟩ := slot_of_mem hg hm
    rw [findN]
    have hcb : childBitNumber (t.1 >>> s) 0 = childBitNumber t.1 s := by
      rw [childBitNumber_shift]
      rfl
    rw [hcb, hlook]
    cases n with
    | leaf h2 k2 v2 =>
      simp only [nodeLeaves, List.mem_singleton] at hmem
      rw [hmem]
    | interior cs0 =>
      have hgn : GoodNode s (childBitNumber t.1 s) (.interior cs0) :=
        hg.2 _ (lookupChild_mem hlook)
      cases hgn with
      | interior _ _ _ hdig hdepth hnd hch =>
        have hsz0 : sizeOf cs0 ≤ m := by
          have hlt := lookupChild_sizeOf hlook
          simp only [HNode.interior.sizeOf_spec] at hlt
          omega
        have hmem0 : t ∈ csLeaves cs0 := by simpa [nodeLeaves] using hmem
        have hstep : (t.1 >>> s) >>> kBitShift = t.1 >>> (s + kBitShift) := by
          rw [Nat.shiftRight_add]
        rw [hstep]
        exact ih cs0 hsz0 (s + kBitShift) t ⟨hnd, hch⟩ hmem0

theorem findN_sound : ∀ m cs, sizeOf cs ≤ m → ∀ (x : Nat) (t : Nat × Nat × Nat),
    findN cs x = some t → t ∈ csLeaves cs := by
  intro m
  induction m with
  | zero =>
    intro cs hsz
    cases cs with
    | nil => intro x t h; rw [findN] at h; simp [lookupChild] at h
    | cons hd tl => simp at hsz
  | succ m ih =>
    intro cs hsz x t h
    rw [findN] at h
    cases hlook : lookupChild cs (childBitNumber x 0) with
    | none => rw [hlook] at h; cases h
    | some n =>
      rw [hlook] at h
      cases n with
      | leaf h2 k2 v2 =>
        cases h
        exact lookupChild_leaves_sub hlook _ (by simp [nodeLeaves])
      | interior cs0 =>
        have hsz0 : sizeOf cs0 ≤ m := by
          have hlt := lookupChild_sizeOf hlook
          simp only [HNode.interior.sizeOf_spec] at hlt
          omega
        have hm0 : t ∈ csLeaves cs0 := ih cs0 hsz0 _ t h
        exact lookupChild_leaves_sub hlook t (by simpa [nodeLeaves] using hm0)

theorem insertN_fresh (h k v : Nat) : ∀ fuel s cs, 6 ∣ s → s ≤ 24 → 30 - s ≤ 6 * fuel →
    GoodCs s cs →
    (∀ t ∈ csLeaves cs, ∀ d : Nat, 6 * d < s →
      childBitNumber t.1 (6 * d) = childBitNumber h (6 * d)) →
    (∀ t ∈ csLeaves cs, t.1 % 2 ^ 30 ≠ h % 2 ^ 30) →
    ∃ cs2, insertN h k v s cs = some cs2 ∧ GoodCs s cs2 ∧
      (csLeaves cs2).Perm ((h, k, v) :: csLeaves cs) := by
  intro fuel
  induction fuel with
  | zero =>
    intro s cs hdvd hs24 hfuel hg hP hF
    exfalso
    omega
  | succ fuel ih =>
    intro s cs hdvd hs24 hfuel hg hP hF
    rw [insertN]
    simp only [kBitShift]
    rw [if_pos (by omega)]
    split
    next hlook =>
      refine ⟨_, rfl, ?_, ?_⟩
      · constructor
        · exact ((addChild_mapFst cs (childBitNumber h s) _).nodup_iff).mpr
            (List.nodup_cons.mpr ⟨lookupChild_none_iff.mp hlook, hg.1⟩)
        · intro p hp
          rcases addChild_members p hp with he | hm
          · rw [he]
            exact GoodNode.leaf _ _ _ _ _ rfl
          · exact hg.2 p hm
      · exact addChild_leaves cs (childBitNumber h s) (.leaf h k v)
    next h2 k2 v2 hlook =>
      have hmem2 : (h2, k2, v2) ∈ csLeaves cs :=
        lookupChild_leaves_sub hlook _ (by simp [nodeLeaves])
      have hfr2 : h2 % 2 ^ 30 ≠ h % 2 ^ 30 := hF _ hmem2
      have hne : ¬ (h2 = h ∧ k2 = k) := fun hc => hfr2 (by rw [hc.1])
      rw [if_neg hne]
      have hdig2 : childBitNumber h2 s = childBitNumber h s := by
        have hgn := hg.2 _ (lookupChild_mem hlook)
        cases hgn with
        | leaf _ _ _ _ _ hd => exact hd
      have hagree : ∀ d : Nat, 6 * d < s + 6 →
          childBitNumber h2 (6 * d) = childBitNumber h (6 * d) := by
        intro d hd
        by_cases hds : 6 * d < s
        · exact hP _ hmem2 d hds
        · have hdeq : 6 * d = s := by omega
          rw [hdeq]
          exact hdig2
      have hs24ne : s ≠ 24 := by
        intro hs
        refine hfr2 ?_
        have hmod := mod_eq_of_digits_eq 5 h2 h (fun d hd => hagree d (by omega))
        simpa using hmod
      obtain ⟨cs3, hins3, hg3, hl3⟩ := ih (s + 6)
        [(childBitNumber h2 (s + 6), .leaf h2 k2 v2)]
        (by omega) (by omega) (by omega)
        (by
          constructor
          · simp
          · intro p hp
            simp only [List.mem_singleton] at hp
            rw [hp]
            exact GoodNode.leaf _ _ _ _ _ rfl)
        (by
          intro t ht d hd
          have ht2 : t = (h2, k2, v2) := by
            simpa [csLeaves_cons, nodeLeaves, csLeaves] using ht
          rw [ht2]
          exact hagree d hd)
        (by
          intro t ht
          have ht2 : t = (h2, k2, v2) := by
            simpa [csLeaves_cons, nodeLeaves, csLeaves] using ht
          rw [ht2]
          exact hfr2)
      split
      next heq =>
        rw [hins3] at heq
        cases heq
      next cs3b heq =>
        rw [hins3] at heq
        cases heq
        refine ⟨_, rfl, ?_, ?_⟩
        · constructor
          · rw [replaceChild_mapFst]
            exact hg.1
          · intro p hp
            rcases replaceChild_members p hp with he | hm
            · rw [he]
              refine GoodNode.interior _ _ _ ?_ (by simp only [kBitShift]; omega)
                hg3.1 hg3.2
              intro t ht
              have hmem3 := hl3.subset ht
              rcases List.mem_cons.mp hmem3 with h1 | h2m
              · rw [h1]
              · have ht2 : t = (h2, k2, v2) := by
                  simpa [csLeaves_cons, nodeLeaves, csLeaves] using h2m
                rw [ht2]
                exact hdig2
            · exact hg.2 p hm
        · have hrl := replaceChild_leaves (HNode.interior cs3) hlook
          have hl3b : (nodeLeaves (HNode.interior cs3)).Perm
              ((h, k, v) :: [(h2, k2, v2)]) := by
            simpa [nodeLeaves, csLeaves_cons, csLeaves] using hl3
          have hcomb : ((h2, k2, v2) :: csLeaves (replaceChild cs (childBitNumber h s)
              (HNode.interior cs3))).Perm ((h, k, v) :: (h2, k2, v2) :: csLeaves cs) := by
            refine List.Perm.trans ?_ ((hl3b.append_right (csLeaves cs)).trans ?_)
            · simpa [nodeLeaves] using hrl
            · simp
          have hswap : ((h, k, v) :: (h2, k2, v2) :: csLeaves cs).Perm
              ((h2, k2, v2) :: (h, k, v) :: csLeaves cs) := List.Perm.swap _ _ _
          exact (hcomb.trans hswap).cons_inv
    next cs0 hlook =>
      have hgn := hg.2 _ (lookupChild_mem hlook)
      cases hgn with
      | interior _ _ _ hdig hdepth hnd0 hch0 =>
        have hs18 : s ≤ 18 := by
          simp only [kBitShift] at hdepth
          omega
        have hsub0 : ∀ t ∈ csLeaves cs0, t ∈ csLeaves cs := by
          intro t ht
          exact lookupChild_leaves_sub hlook t (by simpa [nodeLeaves] using ht)
        obtain ⟨cs3, hins3, hg3, hl3⟩ := ih (s + 6) cs0
          (by omega) (by omega) (by omega)
          ⟨hnd0, fun p hp => hch0 p hp⟩
          (by
            intro t ht d hd
            by_cases hds : 6 * d < s
            · exact hP _ (hsub0 t ht) d hds
            · have hdeq : 6 * d = s := by omega
              rw [hdeq, hdig t ht])
          (fun t ht => hF _ (hsub0 t ht))
        split
        next heq =>
          rw [hins3] at heq
          cases heq
        next cs3b heq =>
          rw [hins3] at heq
          cases heq
          refine ⟨_, rfl, ?_, ?_⟩
          · constructor
            · rw [replaceChild_mapFst]
              exact hg.1
            · intro p hp
              rcases replaceChild_members p hp with he | hm
              · rw [he]
                refine GoodNode.interior _ _ _ ?_ hdepth hg3.1
                  (fun p2 hp2 => hg3.2 p2 hp2)
                intro t ht
                have hmem3 := hl3.subset ht
                rcases List.mem_cons.mp hmem3 with h1 | h2m
                · rw [h1]
                · exact hdig t h2m
              · exact hg.2 p hm
          · have hrl := replaceChild_leaves (HNode.interior cs3) hlook
            have hstep : ((csLeaves cs0) ++ csLeaves (replaceChild cs (childBitNumber h s)
                (HNode.interior cs3))).Perm
                ((csLeaves cs0) ++ ((h, k, v) :: csLeaves cs)) := by
              refine List.Perm.trans (by simpa [nodeLeaves] using hrl) ?_
              refine List.Perm.trans (hl3.append_right (csLeaves cs)) ?_
              simp only [List.cons_append]
              exact (List.perm_middle).symm
            exact (List.perm_append_left_iff _).mp hstep

theorem removeN_present (h k v : Nat) : ∀ fuel s cs, 6 ∣ s → s ≤ 24 → 30 - s ≤ 6 * fuel →
    GoodCs s cs →
    (h, k, v) ∈ csLeaves cs →
    ∃ cs2, removeN h k s cs = some (true, cs2) ∧ GoodCs s cs2 ∧
      ((h, k, v) :: csLeaves cs2).Perm (csLeaves cs) := by
  intro fuel
  induction fuel with
  | zero =>
    intro s cs hdvd hs24 hfuel hg hm
    exfalso
    omega
  | succ fuel ih =>
    intro s cs hdvd hs24 hfuel hg hm
    obtain ⟨n, hlook0, hmem0⟩ := slot_of_mem hg hm
    have hfst : (h, k, v).1 = h := rfl
    rw [hfst] at hlook0
    rw [removeN]
    simp only [kBitShift]
    rw [if_pos (by omega)]
    split
    next hlook =>
      rw [hlook0] at hlook
      cases hlook
    next h2 k2 v2 hlook =>
      rw [hlook0] at hlook
      cases hlook
      have he : (h, k, v) = (h2, k2, v2) := by
        simpa [nodeLeaves] using hmem0
      have he2 : h2 = h ∧ k2 = k := by
        obtain ⟨e1, e2, e3⟩ := Prod.mk.injEq .. ▸ he
        exact ⟨e1.symm, by
          cases he
          exact rfl⟩
      rw [if_pos he2]
      refine ⟨_, rfl, ?_, ?_⟩
      · exact ⟨removeChild_mapFst_nodup hg.1,
          fun p hp => hg.2 p ((removeChild_sublist cs _).subset hp)⟩
      · have hrl := removeChild_leaves hlook0
        cases he
        simpa [nodeLeaves] using hrl
    next cs0 hlook =>
      rw [hlook0] at hlook
      cases hlook
      have hgn := hg.2 _ (lookupChild_mem hlook0)
      cases hgn with
      | interior _ _ _ hdig hdepth hnd0 hch0 =>
        have hs18 : s ≤ 18 := by
          simp only [kBitShift] at hdepth
          omega
        have hmem1 : (h, k, v) ∈ csLeaves cs0 := by
          simpa [nodeLeaves] using hmem0
        obtain ⟨cs3, hrem3, hg3, hl3⟩ := ih (s + 6) cs0
          (by omega) (by omega) (by omega)
          ⟨hnd0, fun p hp => hch0 p hp⟩ hmem1
        split
        next heq =>
          rw [hrem3] at heq
          cases heq
        next x heq =>
          rw [hrem3] at heq
          cases heq
        next heq =>
          rw [hrem3] at heq
          obtain ⟨-, heq2⟩ := Prod.mk.injEq .. ▸ Option.some.inj heq
          refine ⟨_, rfl, ?_, ?_⟩
          · exact ⟨removeChild_mapFst_nodup hg.1,
              fun p hp => hg.2 p ((removeChild_sublist cs _).subset hp)⟩
          · have hrl := removeChild_leaves hlook0
            have hcs0 : (csLeaves cs0).Perm [(h, k, v)] := by
              have := hl3.symm
              rw [heq2] at hl3
              simpa [csLeaves] using hl3.symm
            refine List.Perm.trans ?_ (by simpa [nodeLeaves] using hrl)
            exact hcs0.symm.append_right _
        next cs3b hne3 heq =>
          rw [hrem3] at heq
          have heq3 : cs3b = cs3 := by
            have hinj := Option.some.inj heq
            exact (Prod.mk.injEq .. ▸ hinj).2.symm
          subst heq3
          refine ⟨_, rfl, ?_, ?_⟩
          · constructor
            · rw [replaceChild_mapFst]
              exact hg.1
            · intro p hp
              rcases replaceChild_members p hp with hpe | hpm
              · rw [hpe]
                refine GoodNode.interior _ _ _ ?_ hdepth hg3.1
                  (fun p2 hp2 => hg3.2 p2 hp2)
                intro t ht
                exact hdig t (hl3.subset (List.mem_cons_of_mem _ ht))
              · exact hg.2 p hpm
          · have hrl := replaceChild_leaves (HNode.interior cs3b) hlook0
            refine (List.perm_append_left_iff (csLeaves cs0)).mp ?_
            refine List.Perm.trans (List.perm_middle) ?_
            refine List.Perm.trans ((by simpa [nodeLeaves] using hrl :
              (csLeaves cs0 ++ csLeaves (replaceChild cs (childBitNumber h s)
                (HNode.interior cs3b))).Perm (csLeaves cs3b ++ csLeaves cs)).cons (h, k, v)) ?_
            exact hl3.append_right _

theorem csLeaves_nil : csLeaves [] = [] := by simp [csLeaves]

theorem insert_fresh {hash : Nat → Nat} {t : HAMTree} {k v : Nat}
    (hg : GoodCs 0 (t.root.getD []))
    (hF : ∀ x ∈ csLeaves (t.root.getD []), x.1 % 2 ^ 30 ≠ hash k % 2 ^ 30) :
    ∃ t2, t.insert hash k v = some t2 ∧ GoodCs 0 (t2.root.getD []) ∧
      (csLeaves (t2.root.getD [])).Perm
        ((hash k, k, v) :: csLeaves (t.root.getD [])) := by
  obtain ⟨cs2, hins, hg2, hl2⟩ := insertN_fresh (hash k) k v 5 0 (t.root.getD [])
    (by omega) (by omega) (by omega) hg (by intro t ht d hd; omega) hF
  refine ⟨⟨some cs2⟩, ?_, hg2, hl2⟩
  unfold HAMTree.insert
  rw [hins]
  rfl

theorem remove_present {hash : Nat → Nat} {t : HAMTree} {k v : Nat}
    (hg : GoodCs 0 (t.root.getD []))
    (hm : (hash k, k, v) ∈ csLeaves (t.root.getD [])) :
    ∃ t2, (t.remove hash k).map (·.2) = some t2 ∧ GoodCs 0 (t2.root.getD []) ∧
      ((hash k, k, v) :: csLeaves (t2.root.getD [])).Perm
        (csLeaves (t.root.getD [])) := by
  cases hroot : t.root with
  | none =>
    rw [hroot] at hm
    simp [csLeaves_nil] at hm
  | some cs =>
    rw [hroot] at hg hm
    simp only [Option.getD_some] at hg hm
    obtain ⟨cs2, hrem, hg2, hl2⟩ := removeN_present (hash k) k v 5 0 cs
      (by omega) (by omega) (by omega) hg hm
    refine ⟨⟨some cs2⟩, ?_, hg2, hl2⟩
    simp [HAMTree.remove, hroot, hrem]

theorem get_of_mem {hash : Nat → Nat} {t : HAMTree} {k v : Nat}
    (hg : GoodCs 0 (t.root.getD []))
    (hm : (hash k, k, v) ∈ csLeaves (t.root.getD [])) :
    t.get hash k = some v := by
  cases hroot : t.root with
  | none =>
    rw [hroot] at hm
    simp [csLeaves_nil] at hm
  | some cs =>
    rw [hroot] at hg hm
    simp only [Option.getD_some] at hg hm
    have hfind : findN cs ((hash k, k, v).1 >>> 0) = some (hash k, k, v) :=
      findN_good (sizeOf cs) cs (le_refl _) 0 (hash k, k, v) hg hm
    have hfind2 : findN cs (hash k) = some (hash k, k, v) := by
      rw [Nat.shiftRight_zero] at hfind
      exact hfind
    simp [HAMTree.get, hroot, hfind2]

theorem get_none_of_not_mem {hash : Nat → Nat} {t : HAMTree} {k : Nat}
    (hnm : ∀ v, (hash k, k, v) ∉ csLeaves (t.root.getD [])) :
    t.get hash k = none := by
  cases hroot : t.root with
  | none => simp [HAMTree.get, hroot]
  | some cs =>
    cases hf : findN cs (hash k) with
    | none => simp [HAMTree.get, hroot, hf]
    | some tr =>
      obtain ⟨h2, k2, v2⟩ := tr
      by_cases hc : h2 = hash k ∧ k2 = k
      · exfalso
        have hmem := findN_sound (sizeOf cs) cs (le_refl _) _ _ hf
        rw [hc.1, hc.2] at hmem
        rw [hroot] at hnm
        exact hnm v2 (by simpa using hmem)
      · simp [HAMTree.get, hroot, hf, hc]

theorem count_eq_leaves (t : HAMTree) :
    t.count = (csLeaves (t.root.getD [])).length := by
  cases hroot : t.root with
  | none => unfold HAMTree.count; rw [hroot]; simp [csLeaves_nil]
  | some cs => unfold HAMTree.count; rw [hroot]; simp [itemCountCs_eq_leaves]

theorem insertList_fresh {hash : Nat → Nat} : ∀ (l : List (Nat × Nat)) (t : HAMTree),
    GoodCs 0 (t.root.getD []) →
    (l.map (fun p => hash p.1 % 2 ^ 30)).Nodup →
    (∀ p ∈ l, ∀ x ∈ csLeaves (t.root.getD []), x.1 % 2 ^ 30 ≠ hash p.1 % 2 ^ 30) →
    ∃ t2, insertList hash t l = some t2 ∧ GoodCs 0 (t2.root.getD []) ∧
      (csLeaves (t2.root.getD [])).Perm
        (l.map (fun p => (hash p.1, p.1, p.2)) ++ csLeaves (t.root.getD [])) := by
  intro l
  induction l with
  | nil =>
    intro t hg hnd hF
    exact ⟨t, rfl, hg, by simp⟩
  | cons p tl ih =>
    intro t hg hnd hF
    obtain ⟨k, v⟩ := p
    obtain ⟨t1, hins1, hg1, hl1⟩ := insert_fresh (v := v) hg (hF (k, v) (List.mem_cons_self _ _))
    simp only [List.map_cons, List.nodup_cons] at hnd
    obtain ⟨t2, hins2, hg2, hl2⟩ := ih t1 hg1 hnd.2 (by
      intro q hq x hx
      rcases List.mem_cons.mp (hl1.subset hx) with he | hm
      · rw [he]
        intro hc
        refine hnd.1 ?_
        have hmm : hash q.1 % 2 ^ 30 ∈ List.map (fun p => hash p.1 % 2 ^ 30) tl :=
          List.mem_map_of_mem (fun p => hash p.1 % 2 ^ 30) hq
        rw [← hc] at hmm
        exact hmm
      · exact hF q (List.mem_cons_of_mem _ hq) x hm)
    refine ⟨t2, ?_, hg2, ?_⟩
    · show ((t.insert hash k v).bind fun s => insertList hash s tl) = some t2
      rw [hins1]
      exact hins2
    · refine hl2.trans ?_
      refine List.Perm.trans (hl1.append_left _) ?_
      simp only [List.map_cons, List.cons_append]
      exact List.perm_middle

theorem removeList_all {hash : Nat → Nat} : ∀ (l : List (Nat × Nat)) (t : HAMTree),
    GoodCs 0 (t.root.getD []) →
    (csLeaves (t.root.getD [])).Perm (l.map (fun p => (hash p.1, p.1, p.2))) →
    ∃ t2, removeList hash t (l.map Prod.fst) = some t2 ∧ GoodCs 0 (t2.root.getD []) ∧
      csLeaves (t2.root.getD []) = [] := by
  intro l
  induction l with
  | nil =>
    intro t hg hp
    exact ⟨t, rfl, hg, List.perm_nil.mp (by simpa using hp)⟩
  | cons p tl ih =>
    intro t hg hp
    obtain ⟨k, v⟩ := p
    have hm : (hash k, k, v) ∈ csLeaves (t.root.getD []) :=
      hp.symm.subset (by simp)
    obtain ⟨t1, hrem1, hg1, hl1⟩ := remove_present hg hm
    have hl1b : (csLeaves (t1.root.getD [])).Perm
        (tl.map (fun p => (hash p.1, p.1, p.2))) := by
      have hcomb := hl1.trans hp
      simpa using hcomb.cons_inv
    obtain ⟨t2, hrem2, hg2, hl2⟩ := ih t1 hg1 hl1b
    refine ⟨t2, ?_, hg2, hl2⟩
    show (((t.remove hash k).map (·.2)).bind fun s => removeList hash s (tl.map Prod.fst)) =
      some t2
    rw [hrem1]
    exact hrem2

/-- C3 counterexample: hashes 0 and 2^30 are distinct 32-bit values and
the keys are distinct, yet the second insert runs past shift 24 on
their shared low 30 bits and hits `assert(shift + kBitShift < 32)`:
the whole insert sequence aborts. -/
theorem C3_counterexample :
    insertList (fun k => k) HAMTree.empty [(0, 1), (1073741824, 2)] = none := by
  simp [insertList, HAMTree.empty, HAMTree.insert, insertN, childBitNumber, lookupChild,
    addChild, replaceChild, kBitShift, List.foldlM]

/-- C3 (amended): if the key hashes are pairwise distinct **in their low
30 bits** (the only bits the tree ever consults; distinct 32-bit hashes
are not enough), then inserting all pairs succeeds, `get` returns every
inserted value, `count` is the number of pairs; after removing every
key, `get` returns none for each and `count` is 0. -/
theorem C3_theorem (hash : Nat → Nat) (l : List (Nat × Nat))
    (hnd : (l.map (fun p => hash p.1 % 2 ^ 30)).Nodup) :
    ∃ t, insertList hash HAMTree.empty l = some t ∧
      (∀ p ∈ l, t.get hash p.1 = some p.2) ∧
      t.count = l.length ∧
      ∃ t2, removeList hash t (l.map Prod.fst) = some t2 ∧
        (∀ p ∈ l, t2.get hash p.1 = none) ∧
        t2.count = 0 := by
  have hg0 : GoodCs 0 ((HAMTree.empty.root).getD []) := by
    constructor
    · simp [HAMTree.empty]
    · intro p hp
      simp [HAMTree.empty] at hp
  obtain ⟨t, hins, hg, hl⟩ := insertList_fresh l HAMTree.empty hg0 hnd
    (by
      intro p hp x hx
      simp [HAMTree.empty, csLeaves_nil] at hx)
  have hlt : (csLeaves (t.root.getD [])).Perm
      (l.map (fun p => (hash p.1, p.1, p.2))) := by
    simpa [HAMTree.empty, csLeaves_nil] using hl
  refine ⟨t, hins, ?_, ?_, ?_⟩
  · intro p hp
    exact get_of_mem hg (hlt.symm.subset
      (List.mem_map_of_mem (fun p => (hash p.1, p.1, p.2)) hp))
  · rw [count_eq_leaves, hlt.length_eq, List.length_map]
  · obtain ⟨t2, hrem, hg2, hl2⟩ := removeList_all l t hg hlt
    refine ⟨t2, hrem, ?_, ?_⟩
    · intro p hp
      refine get_none_of_not_mem ?_
      intro v hv
      rw [hl2] at hv
      simp at hv
    · rw [count_eq_leaves, hl2]
      rfl

/-- C3 witness: two pairs with identity hash. -/
theorem C3_witness :
    (([(0, 10), (1, 20)] : List (Nat × Nat)).map
      (fun p => (fun k => k) p.1 % 2 ^ 30)).Nodup ∧
    (∃ t, insertList (fun k => k) HAMTree.empty [(0, 10), (1, 20)] = some t ∧
      (∀ p ∈ ([(0, 10), (1, 20)] : List (Nat × Nat)),
        t.get (fun k => k) p.1 = some p.2) ∧
      t.count = ([(0, 10), (1, 20)] : List (Nat × Nat)).length ∧
      ∃ t2, removeList (fun k => k) t
          (([(0, 10), (1, 20)] : List (Nat × Nat)).map Prod.fst) = some t2 ∧
        (∀ p ∈ ([(0, 10), (1, 20)] : List (Nat × Nat)),
          t2.get (fun k => k) p.1 = none) ∧
        t2.count = 0) :=
  ⟨by decide, C3_theorem (fun k => k) [(0, 10), (1, 20)] (by decide)⟩

end Fleece
